import Mathlib

/-!
# Verification of the block-graph core (`core/block.js`)

This file gives a shallow embedding, in Lean 4, of the data model and the
operations of `Blockly.Block` (file `core/block.js` of the repository) that
the specification talks about, and proves or refutes the spec's claims
about them.

Conventions:
* every definition is translated from the JavaScript source, statement by
  statement; the few collaborator classes whose code is not part of the
  source surface (`Blockly.Connection`, `Blockly.Input`,
  `Blockly.RenderedTypeExpr`, the bound-variable classes) are modelled
  from the spec's interface description, and each such definition says so
  in its doc comment;
* JavaScript object identity is rendered with explicit ids (`Nat`);
  heap mutation is rendered by explicit state passing;
* `null`/`undefined` become `Option`.
-/

namespace BlockCore

/-! ## Input reordering (`moveNumberedInputBefore` / `moveInputBefore`)

`Blockly.Block.prototype.moveNumberedInputBefore` (block.js:1512-1528)
splices the input out of `inputList`, decrements the reference index when
the removal happened before it, and re-inserts the very same input object.
`Blockly.Block.prototype.moveInputBefore` (block.js:1481-1505) returns at
once when the two names coincide, otherwise resolves both names to indices
(a missing reference name meaning "append at the end") and delegates to
the numbered variant.  Inputs are opaque values here (`α`): the JavaScript
code moves object references, so the connection, the connected child and
the socket type expression of each input travel with it untouched.
-/

/-- Shallow embedding of `Blockly.Block.prototype.moveNumberedInputBefore`
(block.js:1512-1528).  The `goog.asserts` preconditions
(`inputIndex ≠ refIndex`, `inputIndex < length`, `refIndex ≤ length`)
appear as hypotheses of the theorems about it; outside them the function
returns the list unchanged (the assertion aborts the operation). -/
def moveNumberedInputBefore (l : List α) (inputIndex refIndex : Nat) : List α :=
  if inputIndex = refIndex ∨ ¬ inputIndex < l.length ∨ ¬ refIndex ≤ l.length then l
  else
    match l[inputIndex]? with
    | none => l
    | some input =>
      let l' := l.eraseIdx inputIndex
      let refIndex' := if inputIndex < refIndex then refIndex - 1 else refIndex
      l'.insertIdx refIndex' input

/-- A block input as far as `moveInputBefore` is concerned: a name plus the
opaque payload (fields, connection, connected child, socket type
expression) that the JavaScript code moves by reference. -/
structure NamedInput (α : Type) where
  name : String
  payload : α
  deriving DecidableEq, Repr

/-- Shallow embedding of `Blockly.Block.prototype.moveInputBefore`
(block.js:1481-1505): early return when `name == refName`, otherwise the
two names are resolved to indices (`refName = none` meaning the end of the
list) and `moveNumberedInputBefore` does the work. -/
def moveInputBefore (l : List (NamedInput α)) (name : String)
    (refName : Option String) : List (NamedInput α) :=
  if refName = some name then l
  else
    let inputIndex := l.findIdx (fun i => i.name = name)
    let refIndex := match refName with
      | none => l.length
      | some r => l.findIdx (fun i => i.name = r)
    moveNumberedInputBefore l inputIndex refIndex

/-- Helper: inserting at a position `≤ length` is a permutation of
consing. -/
theorem insertIdx_perm_cons (x : α) :
    ∀ (n : Nat) (l : List α), n ≤ l.length → (l.insertIdx n x).Perm (x :: l)
  | 0, l, _ => by simp
  | n + 1, [], h => by simp at h
  | n + 1, a :: l, h => by
    have ih := insertIdx_perm_cons x n l (Nat.le_of_succ_le_succ h)
    simpa using (ih.cons a).trans (List.Perm.swap x a l)

/-- Helper: a list is a permutation of its `i`-th element consed onto the
list with that element erased. -/
theorem perm_cons_eraseIdx :
    ∀ (l : List α) (i : Nat) (x : α), l[i]? = some x → l.Perm (x :: l.eraseIdx i)
  | [], i, x, h => by simp at h
  | a :: l, 0, x, h => by
    simp only [List.getElem?_cons_zero, Option.some.injEq] at h
    subst h; simp
  | a :: l, i + 1, x, h => by
    simp only [List.getElem?_cons_succ] at h
    have ih := perm_cons_eraseIdx l i x h
    simpa using (ih.cons a).trans (List.Perm.swap x a _)

/-- **C8.** For valid indices (`inputIndex < length`, `refIndex ≤ length`,
`inputIndex ≠ refIndex`), `moveNumberedInputBefore` produces a permutation
of the original input list in which the moved input sits immediately
before the position the reference index denoted (at the end, when the
reference index was the length), every other input keeps its relative
order, and every input object travels unchanged; and
`moveInputBefore(name, name)` changes nothing. -/
theorem moveNumberedInputBefore_spec (l : List α) (i r : Nat)
    (hi : i < l.length) (hr : r ≤ l.length) (hir : i ≠ r) :
    (moveNumberedInputBefore l i r).Perm l ∧
    (moveNumberedInputBefore l i r)[if i < r then r - 1 else r]? = l[i]? ∧
    (r < l.length →
      (moveNumberedInputBefore l i r)[(if i < r then r - 1 else r) + 1]? = l[r]?) ∧
    (moveNumberedInputBefore l i r).eraseIdx (if i < r then r - 1 else r)
      = l.eraseIdx i ∧
    (∀ (m : List (NamedInput α)) (n : String), moveInputBefore m n (some n) = m) := by
  have hguard : ¬ (i = r ∨ ¬ i < l.length ∨ ¬ r ≤ l.length) := by
    push_neg; exact ⟨hir, hi, hr⟩
  have hix : l[i]? = some l[i] := List.getElem?_eq_getElem hi
  have hres : moveNumberedInputBefore l i r
      = (l.eraseIdx i).insertIdx (if i < r then r - 1 else r) l[i] := by
    unfold moveNumberedInputBefore
    rw [if_neg hguard, hix]
  have hlenE : (l.eraseIdx i).length = l.length - 1 := by
    simp [List.length_eraseIdx, hi]
  have hj : (if i < r then r - 1 else r) ≤ (l.eraseIdx i).length := by
    rcases Nat.lt_or_ge i r with h | h
    · rw [if_pos h]; omega
    · have : r < i := Nat.lt_of_le_of_ne h (Ne.symm hir)
      rw [if_neg (by omega)]; omega
  refine ⟨?_, ?_, ?_, ?_, ?_⟩
  · rw [hres]
    exact (insertIdx_perm_cons _ _ _ hj).trans (perm_cons_eraseIdx l i _ hix).symm
  · rw [hres, List.getElem?_eq_getElem
      (by rw [List.length_insertIdx _ _ hj]; omega),
      List.getElem_insertIdx_self _ _ _ hj, hix]
  · intro hrlen
    rw [hres]
    rcases Nat.lt_or_ge i r with h | h
    · rw [if_pos h] at hj ⊢
      have hk : (r - 1) + 0 < (l.eraseIdx i).length := by omega
      have hstep := List.getElem_insertIdx_add_succ (l.eraseIdx i) l[i] (r - 1) 0 hk
      rw [List.getElem?_eq_getElem (by rw [List.length_insertIdx _ _ hj]; omega)]
      simp only [Nat.add_zero] at hstep ⊢
      rw [hstep]
      rw [List.getElem_eraseIdx_of_ge l i (r - 1) (by omega) (by omega)]
      rw [List.getElem?_eq_getElem hrlen]
      simp only [show r - 1 + 1 = r by omega]
    · have hri : r < i := Nat.lt_of_le_of_ne h (Ne.symm hir)
      rw [if_neg (by omega)] at hj ⊢
      have hk : r + 0 < (l.eraseIdx i).length := by omega
      have hstep := List.getElem_insertIdx_add_succ (l.eraseIdx i) l[i] r 0 hk
      rw [List.getElem?_eq_getElem (by rw [List.length_insertIdx _ _ hj]; omega)]
      simp only [Nat.add_zero] at hstep ⊢
      rw [hstep]
      rw [List.getElem_eraseIdx_of_lt l i r (by omega) hri]
      rw [List.getElem?_eq_getElem hrlen]
  · rw [hres, List.eraseIdx_insertIdx]
  · intro m n
    unfold moveInputBefore
    rw [if_pos rfl]

/-- Witness for `moveNumberedInputBefore_spec` at a concrete input:
moving index 0 before index 2 in a three-element list. -/
theorem moveNumberedInputBefore_spec_witness :
    (moveNumberedInputBefore [10, 20, 30] 0 2).Perm [10, 20, 30] ∧
    (moveNumberedInputBefore [10, 20, 30] 0 2)[if 0 < 2 then 2 - 1 else 2]?
      = [10, 20, 30][0]? ∧
    (2 < [10, 20, 30].length →
      (moveNumberedInputBefore [10, 20, 30] 0 2)[(if 0 < 2 then 2 - 1 else 2) + 1]?
        = [10, 20, 30][2]?) ∧
    (moveNumberedInputBefore [10, 20, 30] 0 2).eraseIdx (if 0 < 2 then 2 - 1 else 2)
      = [10, 20, 30].eraseIdx 0 ∧
    (∀ (m : List (NamedInput Nat)) (n : String), moveInputBefore m n (some n) = m) :=
  moveNumberedInputBefore_spec [10, 20, 30] 0 2 (by decide) (by decide) (by decide)

/-! ## Scope hooks of `lambda_typed` and `let_typed` (`getVisibleVariables`)

`Blockly.Blocks['lambda_typed'].getVisibleVariables` (block.js:2456-2465)
and `Blockly.Blocks['let_typed'].getVisibleVariables` (block.js:2735-2744)
compare the queried connection against the connection of one specific
input ('RETURN' resp. 'EXP2') and expose the block's single owned Value
exactly there.  Connections are rendered by their identity (`Nat`).
-/

/-- A bound-variable Value (a declaration site).  Modelled from the spec:
the `Blockly.BoundVariableValue` class is not part of the source surface;
the spec describes it as a named declaration site owned by its block. -/
structure BoundValue where
  name : String
  vid : Nat
  deriving DecidableEq, Repr

/-- The part of a typed block that `getVisibleVariables` reads: the input
list (input name and optional connection identity, in declaration order)
and the owned Value stored in `this.typedValue['VAR']`. -/
structure ScopedBlock where
  inputs : List (String × Option Nat)
  varValue : BoundValue
  deriving DecidableEq, Repr

/-- `Blockly.Block.prototype.getInput` (block.js:1566-1574): first input
with the given name, or `none`. -/
def getInput (b : ScopedBlock) (nm : String) : Option (String × Option Nat) :=
  b.inputs.find? (fun i => i.1 = nm)

/-- The `lambda_typed` block as built by its `init` (block.js:2418-2434):
a dummy input (holding the λ label and the bound-variable field), then
the 'RETURN' value input; `typedValue['VAR']` holds the parameter's
Value. -/
def mkLambdaTyped (returnConn : Nat) (paramName : String) (paramId : Nat) :
    ScopedBlock :=
  { inputs := [("", none), ("RETURN", some returnConn)],
    varValue := ⟨paramName, paramId⟩ }

/-- The `let_typed` block as built by its `init` (block.js:2694-2713):
the 'VARIABLE' dummy input, then the 'EXP1' and 'EXP2' value inputs;
`typedValue['VAR']` holds the bound name's Value. -/
def mkLetTyped (exp1Conn exp2Conn : Nat) (varName : String) (varId : Nat) :
    ScopedBlock :=
  { inputs := [("VARIABLE", none), ("EXP1", some exp1Conn), ("EXP2", some exp2Conn)],
    varValue := ⟨varName, varId⟩ }

/-- `Blockly.Blocks['lambda_typed'].getVisibleVariables`
(block.js:2456-2465): the parameter's Value is visible exactly at the
'RETURN' input's connection. -/
def lambdaGetVisibleVariables (b : ScopedBlock) (conn : Nat) :
    List (String × BoundValue) :=
  match getInput b "RETURN" with
  | none => []
  | some ret =>
    if ret.2 = some conn then [(b.varValue.name, b.varValue)] else []

/-- `Blockly.Blocks['let_typed'].getVisibleVariables` (block.js:2735-2744):
the bound name's Value is visible exactly at the 'EXP2' input's
connection. -/
def letGetVisibleVariables (b : ScopedBlock) (conn : Nat) :
    List (String × BoundValue) :=
  match getInput b "EXP2" with
  | none => []
  | some exp2 =>
    if exp2.2 = some conn then [(b.varValue.name, b.varValue)] else []

/-- **C7.** `lambda_typed.getVisibleVariables(conn)` returns the map with
its parameter's Value exactly when `conn` is the 'RETURN' input's
connection and the empty map for every other connection; likewise
`let_typed.getVisibleVariables(conn)` exposes its bound name's Value
exactly at the 'EXP2' input's connection. -/
theorem getVisibleVariables_spec (rc e1 e2 pid vid conn : Nat)
    (pn vn : String) :
    lambdaGetVisibleVariables (mkLambdaTyped rc pn pid) conn
      = (if conn = rc then [(pn, ⟨pn, pid⟩)] else []) ∧
    letGetVisibleVariables (mkLetTyped e1 e2 vn vid) conn
      = (if conn = e2 then [(vn, ⟨vn, vid⟩)] else []) := by
  constructor
  · by_cases h : conn = rc
    · subst h; simp [lambdaGetVisibleVariables, getInput, mkLambdaTyped]
    · simp [lambdaGetVisibleVariables, getInput, mkLambdaTyped, h, Ne.symm h]
  · by_cases h : conn = e2
    · subst h; simp [letGetVisibleVariables, getInput, mkLetTyped]
    · simp [letGetVisibleVariables, getInput, mkLetTyped, h, Ne.symm h]

/-! ## `clearTypes` of the typed block kinds (C5)

Each typed block kind implements `clearTypes` as a straight-line sequence
of two operation shapes: clearing a type expression the block itself owns
(`….typeExpr.clear()`) and instructing the child connected at a named
input to clear its own types (`this.callClearTypes_(name)`,
block.js:1797-1803).  We record, for the three block kinds the claim
names, the type expressions their `init` places on their own sockets
(output connection and value-input connections) and their `clearTypes`
sequence, and examine the ordering property.

A type variable generated by `Blockly.RenderedTypeExpr.generateTypeVar()`
is rendered by an identity (`Nat`); the same identity appearing twice
renders the aliasing the `init` code creates by storing one JavaScript
object on two sockets.
-/

/-- Syntactic shapes of the type expressions the typed block definitions
build (`Blockly.RenderedTypeExpr.INT/BOOL/FLOAT/LIST/PAIR/FUN` and
generated type variables). -/
inductive TyExpr where
  | tvar (v : Nat)
  | tint
  | tbool
  | tfloat
  | tlist (e : TyExpr)
  | tpair (a b : TyExpr)
  | tfun (a b : TyExpr)
  deriving DecidableEq, Repr

/-- The type variables occurring in a type expression: the state `clear`
can reset.  Modelled from the spec: `clear(node)` "detaches a node back
to a fresh unbound state", and only variable nodes carry such state. -/
def TyExpr.tvars : TyExpr → List Nat
  | .tvar v => [v]
  | .tint | .tbool | .tfloat => []
  | .tlist e => e.tvars
  | .tpair a b => a.tvars ++ b.tvars
  | .tfun a b => a.tvars ++ b.tvars

/-- One step of a `clearTypes` implementation. -/
inductive ClearOp where
  | clearOwn (t : TyExpr)
  | clearChild (input : String)
  deriving DecidableEq, Repr

/-- The data of one typed block kind that C5 talks about: the type
expressions its `init` stores on its own sockets, and its `clearTypes`
sequence. -/
structure TypedBlockDef where
  ownSockets : List TyExpr
  clearTrace : List ClearOp
  deriving DecidableEq, Repr

/-- `int_arithmetic_typed` (init block.js:2025-2056, clearTypes
block.js:2058-2061): output, 'A' and 'B' sockets all carry `INT`;
`clearTypes` only instructs the children. -/
def intArithmeticTyped : TypedBlockDef :=
  { ownSockets := [.tint, .tint, .tint],
    clearTrace := [.clearChild "A", .clearChild "B"] }

/-- `logic_compare_typed` (init block.js:1890-1932, clearTypes
block.js:1934-1938): output `BOOL`, the 'A' and 'B' sockets share one
generated type variable `a`; `clearTypes` clears that variable (via the
'A' socket) and then instructs the children. -/
def logicCompareTyped (a : Nat) : TypedBlockDef :=
  { ownSockets := [.tbool, .tvar a, .tvar a],
    clearTrace := [.clearOwn (.tvar a), .clearChild "A", .clearChild "B"] }

/-- `let_typed` (init block.js:2694-2713, clearTypes block.js:2799-2804):
the 'EXP1' socket carries variable `a`, the 'EXP2' socket and the output
share variable `b`; `clearTypes` clears both sockets' expressions and
then instructs the children. -/
def letTyped (a b : Nat) : TypedBlockDef :=
  { ownSockets := [.tvar a, .tvar b, .tvar b],
    clearTrace := [.clearOwn (.tvar a), .clearOwn (.tvar b),
                   .clearChild "EXP1", .clearChild "EXP2"] }

/-- Whether an operation clears a type expression the block owns. -/
def ClearOp.isClearOwn : ClearOp → Bool
  | .clearOwn _ => true
  | .clearChild _ => false

/-- The prefix of a `clearTypes` sequence before the first instruction to
a child. -/
def ownClearPrefix (d : TypedBlockDef) : List ClearOp :=
  d.clearTrace.takeWhile (fun op => match op with
    | .clearChild _ => false
    | .clearOwn _ => true)

/-- The claim as stated: every type expression the block owns is cleared
before any child is instructed. -/
def clearsAllOwnFirst (d : TypedBlockDef) : Prop :=
  ∀ t ∈ d.ownSockets, ClearOp.clearOwn t ∈ ownClearPrefix d

instance (d : TypedBlockDef) : Decidable (clearsAllOwnFirst d) := by
  unfold clearsAllOwnFirst; infer_instance

/-- The ordering property that actually holds: every type **variable**
owned by the block (the only state `clear` resets) is cleared before any
child is instructed. -/
def clearsOwnVarsFirst (d : TypedBlockDef) : Prop :=
  ∀ t ∈ d.ownSockets, ∀ v ∈ t.tvars,
    ∃ t', ClearOp.clearOwn t' ∈ ownClearPrefix d ∧ v ∈ t'.tvars

/-- **C5, counterexample.** `int_arithmetic_typed` owns three socket type
expressions (all `INT`) yet its `clearTypes` performs no clear of its own
at all — it only instructs its children — so the claim "calls clear on
every Type Expression the block itself owns before it instructs any
connected child" is false as stated. -/
theorem intArithmeticTyped_not_clearsAllOwnFirst :
    intArithmeticTyped.ownSockets ≠ [] ∧
    (∀ op ∈ intArithmeticTyped.clearTrace, op.isClearOwn = false) ∧
    ¬ clearsAllOwnFirst intArithmeticTyped := by
  refine ⟨by decide, by decide, ?_⟩
  intro h
  have := h .tint (by decide)
  revert this
  decide

/-- **C5, amended.** For the three typed block kinds named by the claim,
`clearTypes` clears every type variable the block itself owns — the only
state `clear` can reset; concrete sockets such as `INT` and `BOOL` carry
none and are not cleared — before it instructs any connected child block
to clear its types. -/
theorem clearTypes_clears_own_vars_first (a b : Nat) :
    clearsOwnVarsFirst intArithmeticTyped ∧
    clearsOwnVarsFirst (logicCompareTyped a) ∧
    clearsOwnVarsFirst (letTyped a b) := by
  refine ⟨?_, ?_, ?_⟩
  · intro t ht v hv
    fin_cases ht <;> simp [TyExpr.tvars] at hv
  · intro t ht v hv
    fin_cases ht <;> simp [TyExpr.tvars] at hv <;>
      exact ⟨.tvar a, by simp [ownClearPrefix, logicCompareTyped, List.takeWhile],
        by simp [TyExpr.tvars, hv]⟩
  · intro t ht v hv
    fin_cases ht <;> simp [TyExpr.tvars] at hv
    · exact ⟨.tvar a, by simp [ownClearPrefix, letTyped, List.takeWhile],
        by simp [TyExpr.tvars, hv]⟩
    · exact ⟨.tvar b, by simp [ownClearPrefix, letTyped, List.takeWhile],
        by simp [TyExpr.tvars, hv]⟩
    · exact ⟨.tvar b, by simp [ownClearPrefix, letTyped, List.takeWhile],
        by simp [TyExpr.tvars, hv]⟩

/-! ## Scope resolution (`resolveReference`, C2/C3)

`Blockly.Block.prototype.resolveReference` (block.js:1670-1704) walks the
subtree rooted at a block breadth-first with a queue of
(block, environment-of-parent) pairs; per block,
`resolveReferenceWithEnv_` (block.js:1716-1738) checks or rebinds the
block's bound-variable References against the environment.  The
environment a child receives is the parent's environment overridden by
whatever the parent declares into that child's slot
(`allVisibleVariables(targetConn, false)`, block.js:1748-1763).

The block tree is rendered as an inductive tree: each node carries
* `decls` — the variables its parent's slot makes visible to it (the
  result of the parent's `getVisibleVariables` hook for that slot),
* `refs`  — the node's own Reference fields, as (name, currently bound
  value id) pairs (`getBoundVariables`, block.js:809-822; Value fields
  are skipped by the `isReference()` test and carry no state here),
* `kids`  — its connected child blocks in `childBlocks_` order.
The environment the caller passes for the root
(`allVisibleVariables(parentConnection)`) is an arbitrary `Env` — the
claims quantify over every environment.  `setBoundValue` /
`removeBoundValue` (bound-variable classes, outside the source surface)
are modelled from the spec: they replace / erase a Reference's bound
value id.
-/

/-- An environment: variable name to value id, later entries shadowed by
earlier ones (`lookupEnv` takes the first match, rendering
`Object.assign` override order). -/
abbrev Env := List (String × Nat)

/-- A path addressing a node in a block tree: the child indices from the
root. -/
abbrev BPath := List Nat

/-- The subtree of blocks that `resolveReference` traverses. -/
inductive SBlock where
  | mk (decls : List (String × Nat)) (refs : List (String × Option Nat))
       (kids : List SBlock)

/-- Variables the parent's slot makes visible to this block. -/
def SBlock.decls : SBlock → List (String × Nat)
  | .mk d _ _ => d

/-- The block's own Reference fields (name, bound value id). -/
def SBlock.refs : SBlock → List (String × Option Nat)
  | .mk _ r _ => r

/-- The connected child blocks. -/
def SBlock.kids : SBlock → List SBlock
  | .mk _ _ k => k

/-- Environment lookup (`env[name]`). -/
def lookupEnv (env : Env) (n : String) : Option Nat :=
  (env.find? (fun p => p.1 = n)).map (·.2)

/-- `Object.assign({}, envOfParent)` followed by
`Object.assign(envOfChild, additionalEnv)` (block.js:1698-1699): the
parent environment overridden by the slot's declarations. -/
def envExtend (env : Env) (decls : List (String × Nat)) : Env :=
  decls ++ env

/-- `resolveReferenceWithEnv_` without `opt_bind` (block.js:1716-1738):
a pure check that every Reference's name is in the environment, false at
the first miss. -/
def resolveRefsCheck (env : Env) (refs : List (String × Option Nat)) : Bool :=
  refs.all (fun r => (lookupEnv env r.1).isSome)

/-- `resolveReferenceWithEnv_` with `opt_bind` (block.js:1716-1738): every
Reference first has its bound value removed and is then bound to the
value found under its name, if any; the result records whether all
resolved. -/
def resolveRefsBind (env : Env) (refs : List (String × Option Nat)) :
    Bool × List (String × Option Nat) :=
  refs.foldl
    (fun acc r =>
      let v := lookupEnv env r.1
      (acc.1 && v.isSome, acc.2 ++ [(r.1, v)]))
    (true, [])

/-- The queue items `resolveReference` pushes for the children of the
block at path `p` (block.js:1694-1701), starting at child index `i`. -/
def enqueueKids (p : BPath) (env : Env) : List SBlock → Nat →
    List (BPath × SBlock × Env)
  | [], _ => []
  | k :: ks, i =>
    (p ++ [i], k, envExtend env k.decls) :: enqueueKids p env ks (i + 1)

/-- Node size, for the termination of the breadth-first traversal. -/
def SBlock.size : SBlock → Nat
  | .mk _ _ kids => 1 + (kids.attach.map (fun k => SBlock.size k.1)).sum
decreasing_by
  have := List.sizeOf_lt_of_mem k.2
  simp only [SBlock.mk.sizeOf_spec]
  omega

/-- Total size of the blocks on a queue. -/
def queueSize (q : List (BPath × SBlock × Env)) : Nat :=
  (q.map (fun it => it.2.1.size)).sum

theorem SBlock.size_mk (d : List (String × Nat))
    (r : List (String × Option Nat)) (kids : List SBlock) :
    (SBlock.mk d r kids).size = 1 + (kids.map SBlock.size).sum := by
  rw [SBlock.size]
  congr 2
  calc kids.attach.map (fun k => SBlock.size k.1)
      = (kids.attach.map Subtype.val).map SBlock.size := by
        rw [List.map_map]; rfl
    _ = kids.map SBlock.size := by rw [List.attach_map_subtype_val]

theorem SBlock.size_pos (b : SBlock) : 0 < b.size := by
  obtain ⟨d, r, kids⟩ := b
  rw [SBlock.size_mk]
  omega

theorem enqueueKids_size_sum (p : BPath) (env : Env) :
    ∀ (ks : List SBlock) (i : Nat),
      queueSize (enqueueKids p env ks i) = (ks.map SBlock.size).sum := by
  intro ks
  induction ks with
  | nil => intro _; simp [enqueueKids, queueSize]
  | cons x xs ih =>
    intro i
    simp only [enqueueKids, queueSize, List.map_cons, List.sum_cons] at *
    rw [ih (i + 1)]

/-- `Blockly.Block.prototype.resolveReference`'s breadth-first loop
(block.js:1679-1703), generalised over the current queue and the
accumulated `allSuccess` flag.  Returns the overall result, the list of
paths of the blocks visited (in visit order), and — in bind mode — the
rebound Reference lists of the visited blocks, keyed by path. -/
def resolveBFS (bind : Bool) (q : List (BPath × SBlock × Env)) (acc : Bool) :
    Bool × List BPath × List (BPath × List (String × Option Nat)) :=
  match q with
  | [] => (acc, [], [])
  | (p, b, env) :: rest =>
    if bind then
      let step := resolveRefsBind env b.refs
      let next := resolveBFS bind (rest ++ enqueueKids p env b.kids 0)
        (acc && step.1)
      (next.1, p :: next.2.1, (p, step.2) :: next.2.2)
    else
      if resolveRefsCheck env b.refs then
        let next := resolveBFS bind (rest ++ enqueueKids p env b.kids 0)
          (acc && true)
        (next.1, p :: next.2.1, next.2.2)
      else
        (false, [p], [])
termination_by queueSize q
decreasing_by
  all_goals
    simp only [queueSize, List.map_append, List.sum_append, List.map_cons,
      List.sum_cons]
    have hsz : (enqueueKids p env b.kids 0 |>.map (fun it => it.2.1.size)).sum
        < b.size := by
      have h1 := enqueueKids_size_sum p env b.kids 0
      simp only [queueSize] at h1
      rw [h1]
      obtain ⟨d, r, kids⟩ := b
      rw [SBlock.size_mk]
      simp only [SBlock.kids]
      omega
    omega

/-- `resolveReference` itself (block.js:1670-1704): seed the queue with
the block and the environment visible at its prospective parent
connection, start with `allSuccess = true`. -/
def resolveReference (b : SBlock) (env : Env) (bind : Bool) :
    Bool × List BPath × List (BPath × List (String × Option Nat)) :=
  resolveBFS bind [([], b, env)] true

/-- The node a path addresses. -/
def SBlock.nodeAt : SBlock → BPath → Option SBlock
  | b, [] => some b
  | b, i :: p =>
    match b.kids[i]? with
    | none => none
    | some k => k.nodeAt p

/-- The environment a node receives during the traversal, computed purely
along its path: the root gets the caller's environment, and each step
into child `i` overrides with that child's slot declarations. -/
def SBlock.envAt : SBlock → Env → BPath → Option Env
  | _, env, [] => some env
  | b, env, i :: p =>
    match b.kids[i]? with
    | none => none
    | some k => k.envAt (envExtend env k.decls) p

/-- Whether every Reference in the whole subtree resolves in the
environment of its own node. -/
def SBlock.allRefsOk : SBlock → Env → Bool
  | .mk _ refs kids, env =>
    resolveRefsCheck env refs &&
      kids.attach.all (fun k => SBlock.allRefsOk k.1 (envExtend env k.1.decls))
decreasing_by
  have := List.sizeOf_lt_of_mem k.2
  simp only [SBlock.mk.sizeOf_spec]
  omega

/-- Structural induction over the nested tree. -/
theorem SBlock.sizeInduction {motive : SBlock → Prop} (b : SBlock)
    (h : ∀ d r kids, (∀ k ∈ kids, motive k) → motive (SBlock.mk d r kids)) :
    motive b := by
  have main : ∀ n b, SBlock.size b ≤ n → motive b := by
    intro n
    induction n with
    | zero => intro b hb; have := SBlock.size_pos b; omega
    | succ n ih =>
      intro b hb
      obtain ⟨d, r, kids⟩ := b
      refine h d r kids (fun k hk => ih k ?_)
      rw [SBlock.size_mk] at hb
      have hle : SBlock.size k ≤ (kids.map SBlock.size).sum :=
        List.single_le_sum (fun _ _ => Nat.zero_le _) _
          (List.mem_map_of_mem _ hk)
      omega
  exact main (SBlock.size b) b le_rfl

theorem SBlock.allRefsOk_mk (d : List (String × Nat))
    (r : List (String × Option Nat)) (kids : List SBlock) (env : Env) :
    (SBlock.mk d r kids).allRefsOk env
      = (resolveRefsCheck env r &&
         kids.all (fun k => k.allRefsOk (envExtend env k.decls))) := by
  rw [SBlock.allRefsOk]
  congr 1
  rcases h : kids.all (fun k => k.allRefsOk (envExtend env k.decls)) with _ | _
  · rw [List.all_eq_false] at h
    obtain ⟨k, hk, hko⟩ := h
    rw [List.all_eq_false]
    exact ⟨⟨k, hk⟩, List.mem_attach _ _, hko⟩
  · rw [List.all_eq_true] at h
    rw [List.all_eq_true]
    exact fun k _ => h k.1 k.2

theorem resolveRefsBind_eq (env : Env) (refs : List (String × Option Nat)) :
    resolveRefsBind env refs
      = (resolveRefsCheck env refs,
         refs.map (fun r => (r.1, lookupEnv env r.1))) := by
  have main : ∀ (rs : List (String × Option Nat))
      (acc : Bool × List (String × Option Nat)),
      rs.foldl (fun acc r =>
          let v := lookupEnv env r.1
          (acc.1 && v.isSome, acc.2 ++ [(r.1, v)])) acc
        = (acc.1 && rs.all (fun r => (lookupEnv env r.1).isSome),
           acc.2 ++ rs.map (fun r => (r.1, lookupEnv env r.1))) := by
    intro rs
    induction rs with
    | nil => intro acc; simp
    | cons r rs ih =>
      intro acc
      simp only [List.foldl_cons, List.all_cons, List.map_cons]
      rw [ih]
      simp [Bool.and_assoc]
  unfold resolveRefsBind resolveRefsCheck
  rw [main]
  simp

theorem mem_enqueueKids (p : BPath) (env : Env) :
    ∀ (ks : List SBlock) (i0 : Nat) (it : BPath × SBlock × Env),
      it ∈ enqueueKids p env ks i0 ↔
        ∃ j k, ks[j]? = some k ∧
          it = (p ++ [i0 + j], k, envExtend env k.decls) := by
  intro ks
  induction ks with
  | nil => intro i0 it; simp [enqueueKids]
  | cons x xs ih =>
    intro i0 it
    simp only [enqueueKids, List.mem_cons, ih (i0 + 1)]
    constructor
    · rintro (rfl | ⟨j, k, hj, rfl⟩)
      · exact ⟨0, x, by simp⟩
      · exact ⟨j + 1, k, by simpa using hj, by
          simp only [Prod.mk.injEq, and_true, true_and]
          congr 2
          omega⟩
    · rintro ⟨j, k, hj, rfl⟩
      cases j with
      | zero =>
        simp only [List.getElem?_cons_zero, Option.some.injEq] at hj
        subst hj
        left; simp
      | succ j =>
        simp only [List.getElem?_cons_succ] at hj
        right
        exact ⟨j, k, hj, by
          simp only [Prod.mk.injEq, and_true, true_and]
          congr 2
          omega⟩

theorem enqueueKids_all (p : BPath) (env : Env)
    (f : SBlock → Env → Bool) :
    ∀ (ks : List SBlock) (i0 : Nat),
      (enqueueKids p env ks i0).all (fun it => f it.2.1 it.2.2)
        = ks.all (fun k => f k (envExtend env k.decls)) := by
  intro ks
  induction ks with
  | nil => intro i0; simp [enqueueKids]
  | cons x xs ih => intro i0; simp [enqueueKids, ih (i0 + 1)]

theorem SBlock.nodeAt_cons (d : List (String × Nat))
    (r : List (String × Option Nat)) (kids : List SBlock) (i : Nat)
    (p : BPath) :
    (SBlock.mk d r kids).nodeAt (i :: p)
      = match kids[i]? with
        | none => none
        | some k => k.nodeAt p := rfl

theorem SBlock.envAt_cons (d : List (String × Nat))
    (r : List (String × Option Nat)) (kids : List SBlock) (env : Env)
    (i : Nat) (p : BPath) :
    (SBlock.mk d r kids).envAt env (i :: p)
      = match kids[i]? with
        | none => none
        | some k => k.envAt (envExtend env k.decls) p := rfl

/-- `allRefsOk` is exactly "every node's References resolve in that
node's environment". -/
theorem SBlock.allRefsOk_iff (b : SBlock) : ∀ (env : Env),
    b.allRefsOk env = true ↔
      ∀ (p : BPath) (b' : SBlock) (env' : Env),
        b.nodeAt p = some b' → b.envAt env p = some env' →
          resolveRefsCheck env' b'.refs = true := by
  induction b using SBlock.sizeInduction with
  | h d r kids ih =>
    intro env
    rw [SBlock.allRefsOk_mk, Bool.and_eq_true, List.all_eq_true]
    constructor
    · rintro ⟨hown, hkids⟩ p b' env' hnode henv
      match p with
      | [] =>
        simp only [SBlock.nodeAt, Option.some.injEq] at hnode
        simp only [SBlock.envAt, Option.some.injEq] at henv
        subst hnode; subst henv
        exact hown
      | i :: p' =>
        rw [SBlock.nodeAt_cons] at hnode
        rw [SBlock.envAt_cons] at henv
        match hk : kids[i]? with
        | none => rw [hk] at hnode; exact absurd hnode (by simp)
        | some k =>
          rw [hk] at hnode henv
          have hkm : k ∈ kids := List.getElem?_mem hk
          exact ((ih k hkm _).mp (hkids k hkm)) p' b' env' hnode henv
    · intro hall
      constructor
      · exact hall [] (SBlock.mk d r kids) env rfl rfl
      · intro k hk
        rw [ih k hk _]
        intro p' b' env' hnode henv
        obtain ⟨i, hi⟩ := List.get_of_mem hk
        have hgi : kids[i.1]? = some k := by
          rw [List.getElem?_eq_getElem i.2]
          exact congrArg some hi
        refine hall (i.1 :: p') b' env' ?_ ?_
        · rw [SBlock.nodeAt_cons, hgi]
          exact hnode
        · rw [SBlock.envAt_cons, hgi]
          exact henv


theorem queueSize_cons (it : BPath × SBlock × Env)
    (q : List (BPath × SBlock × Env)) :
    queueSize (it :: q) = it.2.1.size + queueSize q := by
  simp [queueSize]

theorem queueSize_append (q1 q2 : List (BPath × SBlock × Env)) :
    queueSize (q1 ++ q2) = queueSize q1 + queueSize q2 := by
  simp [queueSize]

theorem SBlock.size_unfold (b : SBlock) :
    b.size = 1 + (b.kids.map SBlock.size).sum := by
  obtain ⟨d, r, kids⟩ := b
  rw [SBlock.size_mk]
  rfl

theorem SBlock.allRefsOk_unfold (b : SBlock) (env : Env) :
    b.allRefsOk env
      = (resolveRefsCheck env b.refs &&
         b.kids.all (fun k => k.allRefsOk (envExtend env k.decls))) := by
  obtain ⟨d, r, kids⟩ := b
  exact SBlock.allRefsOk_mk d r kids env

theorem queueSize_step (p : BPath) (env : Env)
    (rest : List (BPath × SBlock × Env)) (b : SBlock) :
    queueSize (rest ++ enqueueKids p env b.kids 0)
      < queueSize ((p, b, env) :: rest) := by
  rw [queueSize_append, queueSize_cons, enqueueKids_size_sum]
  rw [SBlock.size_unfold b]
  omega

/-- `v` addresses a node of one of the queue's subtrees, whose own
Reference check in its environment comes out as `res`. -/
def checkedVisit (res : Bool) (q : List (BPath × SBlock × Env))
    (v : BPath) : Prop :=
  ∃ it ∈ q, ∃ (p' : BPath) (b' : SBlock) (env' : Env),
    v = it.1 ++ p' ∧ it.2.1.nodeAt p' = some b' ∧
    it.2.1.envAt it.2.2 p' = some env' ∧
    resolveRefsCheck env' b'.refs = res

/-- `v` addresses a node of one of the queue's subtrees. -/
def validVisit (q : List (BPath × SBlock × Env)) (v : BPath) : Prop :=
  ∃ it ∈ q, ∃ (p' : BPath) (b' : SBlock) (env' : Env),
    v = it.1 ++ p' ∧ it.2.1.nodeAt p' = some b' ∧
    it.2.1.envAt it.2.2 p' = some env'

/-- The bind-mode breadth-first loop, characterised over an arbitrary
queue: the result is the accumulated flag conjoined with "all References
of all queued subtrees resolve"; every node of every queued subtree is
visited (the traversal never stops early) and has its rebound Reference
list — old bindings dropped, each Reference bound to the environment's
value for its name or left explicitly unresolved — recorded; visits and
mutation records number exactly the nodes; and only nodes of the queued
subtrees are visited. -/
theorem resolveBFS_bind_spec :
    ∀ (n : Nat) (q : List (BPath × SBlock × Env)) (acc : Bool),
    queueSize q ≤ n →
    (resolveBFS true q acc).1
        = (acc && q.all (fun it => it.2.1.allRefsOk it.2.2)) ∧
    (resolveBFS true q acc).2.1.length = queueSize q ∧
    (resolveBFS true q acc).2.2.length = queueSize q ∧
    (∀ it ∈ q, ∀ (p' : BPath) (b' : SBlock) (env' : Env),
        it.2.1.nodeAt p' = some b' → it.2.1.envAt it.2.2 p' = some env' →
          (it.1 ++ p') ∈ (resolveBFS true q acc).2.1 ∧
          (it.1 ++ p', b'.refs.map (fun r => (r.1, lookupEnv env' r.1)))
            ∈ (resolveBFS true q acc).2.2) ∧
    (∀ v ∈ (resolveBFS true q acc).2.1, validVisit q v) := by
  intro n
  induction n with
  | zero =>
    intro q acc hq
    match q with
    | [] =>
      rw [resolveBFS]
      refine ⟨by simp, by simp [queueSize], by simp [queueSize], ?_, ?_⟩
      · intro it hit; exact absurd hit (by simp)
      · intro v hv; exact absurd hv (by simp)
    | (p, b, env) :: rest =>
      exfalso
      rw [queueSize_cons] at hq
      have hq2 : b.size + queueSize rest ≤ 0 := hq
      have := SBlock.size_pos b
      omega
  | succ n ih =>
    intro q acc hq
    match q with
    | [] =>
      rw [resolveBFS]
      refine ⟨by simp, by simp [queueSize], by simp [queueSize], ?_, ?_⟩
      · intro it hit; exact absurd hit (by simp)
      · intro v hv; exact absurd hv (by simp)
    | (p, b, env) :: rest =>
      have hstep := queueSize_step p env rest b
      have hq' : queueSize (rest ++ enqueueKids p env b.kids 0) ≤ n := by
        omega
      have ihq := ih (rest ++ enqueueKids p env b.kids 0)
        (acc && (resolveRefsBind env b.refs).1) hq'
      obtain ⟨ih1, ih2, ih3, ih4, ih5⟩ := ihq
      have hout : resolveBFS true ((p, b, env) :: rest) acc
          = ((resolveBFS true (rest ++ enqueueKids p env b.kids 0)
                (acc && (resolveRefsBind env b.refs).1)).1,
             p :: (resolveBFS true (rest ++ enqueueKids p env b.kids 0)
                (acc && (resolveRefsBind env b.refs).1)).2.1,
             (p, (resolveRefsBind env b.refs).2) ::
               (resolveBFS true (rest ++ enqueueKids p env b.kids 0)
                (acc && (resolveRefsBind env b.refs).1)).2.2) := by
        rw [resolveBFS]
        simp only [if_true]
      rw [hout]
      refine ⟨?_, ?_, ?_, ?_, ?_⟩
      · rw [ih1, resolveRefsBind_eq]
        simp only [List.all_append, List.all_cons]
        rw [enqueueKids_all p env (fun k e => k.allRefsOk e) b.kids 0,
          SBlock.allRefsOk_unfold b env]
        cases acc <;> cases resolveRefsCheck env b.refs <;>
          cases List.all rest (fun it => it.2.1.allRefsOk it.2.2) <;>
          cases List.all b.kids
            (fun k => k.allRefsOk (envExtend env k.decls)) <;> rfl
      · simp only [List.length_cons]
        rw [ih2, queueSize_append, queueSize_cons, enqueueKids_size_sum,
          SBlock.size_unfold b]
        omega
      · simp only [List.length_cons]
        rw [ih3, queueSize_append, queueSize_cons, enqueueKids_size_sum,
          SBlock.size_unfold b]
        omega
      · intro it hit p' b' env' hnode henv
        rcases List.mem_cons.mp hit with rfl | hit'
        · -- the dequeued item itself
          match p' with
          | [] =>
            simp only [SBlock.nodeAt, Option.some.injEq] at hnode
            simp only [SBlock.envAt, Option.some.injEq] at henv
            subst hnode; subst henv
            constructor
            · simp
            · simp only [List.append_nil]
              rw [resolveRefsBind_eq]
              exact List.mem_cons_self _ _
          | i :: p'' =>
            rw [SBlock.nodeAt] at hnode
            rw [SBlock.envAt] at henv
            match hk : b.kids[i]? with
            | none =>
              rw [hk] at hnode
              exact absurd hnode (by simp)
            | some k =>
              rw [hk] at hnode henv
              have hitem : (p ++ [i], k, envExtend env k.decls)
                  ∈ enqueueKids p env b.kids 0 := by
                rw [mem_enqueueKids]
                exact ⟨i, k, hk, by simp⟩
              have hmem : (p ++ [i], k, envExtend env k.decls)
                  ∈ rest ++ enqueueKids p env b.kids 0 :=
                List.mem_append_right _ hitem
              have := ih4 _ hmem p'' b' env' hnode henv
              have hassoc : (p ++ [i]) ++ p'' = p ++ (i :: p'') := by
                rw [List.append_assoc]; rfl
              rw [hassoc] at this
              exact ⟨List.mem_cons_of_mem _ this.1,
                List.mem_cons_of_mem _ this.2⟩
        · have hmem : it ∈ rest ++ enqueueKids p env b.kids 0 :=
            List.mem_append_left _ hit'
          have := ih4 _ hmem p' b' env' hnode henv
          exact ⟨List.mem_cons_of_mem _ this.1,
            List.mem_cons_of_mem _ this.2⟩
      · intro v hv
        rcases List.mem_cons.mp hv with rfl | hv'
        · exact ⟨(v, b, env), List.mem_cons_self _ _, [], b, env,
            by simp, rfl, rfl⟩
        · obtain ⟨it', hit', p', b', env', hveq, hnode, henv⟩ := ih5 v hv'
          rcases List.mem_append.mp hit' with hrest | henq
          · exact ⟨it', List.mem_cons_of_mem _ hrest, p', b', env',
              hveq, hnode, henv⟩
          · rw [mem_enqueueKids] at henq
            obtain ⟨j, k, hj, rfl⟩ := henq
            refine ⟨(p, b, env), List.mem_cons_self _ _, j :: p', b', env',
              ?_, ?_, ?_⟩
            · rw [hveq]
              simp only [Nat.zero_add]
              rw [List.append_assoc]
              rfl
            · rw [SBlock.nodeAt]
              simp only [Nat.zero_add] at hnode ⊢
              rw [hj]
              exact hnode
            · rw [SBlock.envAt]
              simp only [Nat.zero_add] at henv ⊢
              rw [hj]
              exact henv

/-- Lifting a checked visit of the successor queue back to the queue it
came from. -/
theorem checkedVisit_lift (res : Bool) (p : BPath) (env : Env)
    (rest : List (BPath × SBlock × Env)) (b : SBlock) (v : BPath)
    (h : checkedVisit res (rest ++ enqueueKids p env b.kids 0) v) :
    checkedVisit res ((p, b, env) :: rest) v := by
  obtain ⟨it', hit', p', b', env', hveq, hnode, henv, hchk⟩ := h
  rcases List.mem_append.mp hit' with hrest | henq
  · exact ⟨it', List.mem_cons_of_mem _ hrest, p', b', env',
      hveq, hnode, henv, hchk⟩
  · rw [mem_enqueueKids] at henq
    obtain ⟨j, k, hj, rfl⟩ := henq
    refine ⟨(p, b, env), List.mem_cons_self _ _, j :: p', b', env',
      ?_, ?_, ?_, hchk⟩
    · rw [hveq]
      simp only [Nat.zero_add]
      rw [List.append_assoc]
      rfl
    · rw [SBlock.nodeAt]
      simp only [Nat.zero_add] at hnode ⊢
      rw [hj]
      exact hnode
    · rw [SBlock.envAt]
      simp only [Nat.zero_add] at henv ⊢
      rw [hj]
      exact henv

/-- The non-bind breadth-first loop, characterised over an arbitrary
queue: it performs no mutation, its result is the accumulated flag
conjoined with "all References of all queued subtrees resolve", and a
false result is produced by a visit sequence whose every block but the
last passes its own Reference check and whose last block fails it — the
traversal stops at the first failing block. -/
theorem resolveBFS_nobind_spec :
    ∀ (n : Nat) (q : List (BPath × SBlock × Env)) (acc : Bool),
    queueSize q ≤ n →
    (resolveBFS false q acc).2.2 = [] ∧
    (resolveBFS false q acc).1
        = (acc && q.all (fun it => it.2.1.allRefsOk it.2.2)) ∧
    (acc = true → (resolveBFS false q acc).1 = false →
      ∃ vpre plast, (resolveBFS false q acc).2.1 = vpre ++ [plast] ∧
        (∀ v ∈ vpre, checkedVisit true q v) ∧ checkedVisit false q plast) := by
  intro n
  induction n with
  | zero =>
    intro q acc hq
    match q with
    | [] =>
      rw [resolveBFS]
      exact ⟨rfl, by simp, by rintro rfl h; cases h⟩
    | (p, b, env) :: rest =>
      exfalso
      rw [queueSize_cons] at hq
      have hq2 : b.size + queueSize rest ≤ 0 := hq
      have := SBlock.size_pos b
      omega
  | succ n ih =>
    intro q acc hq
    match q with
    | [] =>
      rw [resolveBFS]
      exact ⟨rfl, by simp, by rintro rfl h; cases h⟩
    | (p, b, env) :: rest =>
      have hstep := queueSize_step p env rest b
      have hq' : queueSize (rest ++ enqueueKids p env b.kids 0) ≤ n := by
        omega
      match hcheck : resolveRefsCheck env b.refs with
      | false =>
        have hout : resolveBFS false ((p, b, env) :: rest) acc
            = (false, [p], []) := by
          rw [resolveBFS]
          simp only [if_false, Bool.false_eq_true, hcheck]
        rw [hout]
        refine ⟨rfl, ?_, ?_⟩
        · rw [List.all_cons, SBlock.allRefsOk_unfold b env, hcheck]
          simp
        · intro _ _
          exact ⟨[], p, rfl, by intro v hv; exact absurd hv (by simp),
            (p, b, env), List.mem_cons_self _ _, [], b, env,
            by simp, rfl, rfl, hcheck⟩
      | true =>
        have ihq := ih (rest ++ enqueueKids p env b.kids 0) (acc && true) hq'
        obtain ⟨ih1, ih2, ih3⟩ := ihq
        have hout : resolveBFS false ((p, b, env) :: rest) acc
            = ((resolveBFS false (rest ++ enqueueKids p env b.kids 0)
                  (acc && true)).1,
               p :: (resolveBFS false (rest ++ enqueueKids p env b.kids 0)
                  (acc && true)).2.1,
               (resolveBFS false (rest ++ enqueueKids p env b.kids 0)
                  (acc && true)).2.2) := by
          rw [resolveBFS]
          simp only [if_false, hcheck, Bool.false_eq_true]
          rfl
        rw [hout]
        refine ⟨ih1, ?_, ?_⟩
        · rw [ih2]
          simp only [List.all_append, List.all_cons]
          rw [enqueueKids_all p env (fun k e => k.allRefsOk e) b.kids 0,
            SBlock.allRefsOk_unfold b env, hcheck]
          cases acc <;>
            cases List.all rest (fun it => it.2.1.allRefsOk it.2.2) <;>
            cases List.all b.kids
              (fun k => k.allRefsOk (envExtend env k.decls)) <;> rfl
        · intro hacc hfail
          subst hacc
          obtain ⟨vpre, plast, hvis, hpre, hlast⟩ := ih3 rfl hfail
          refine ⟨p :: vpre, plast, by rw [hvis]; rfl, ?_, ?_⟩
          · intro v hv
            rcases List.mem_cons.mp hv with rfl | hv'
            · exact ⟨(v, b, env), List.mem_cons_self _ _, [], b, env,
                by simp, rfl, rfl, hcheck⟩
            · exact checkedVisit_lift true p env rest b v (hpre v hv')
          · exact checkedVisit_lift false p env rest b plast hlast

theorem checkedVisit_singleton (res : Bool) (b : SBlock) (env : Env)
    (v : BPath) :
    checkedVisit res [([], b, env)] v ↔
      ∃ b' env', b.nodeAt v = some b' ∧ b.envAt env v = some env' ∧
        resolveRefsCheck env' b'.refs = res := by
  constructor
  · rintro ⟨it, hit, p', b', env', hveq, hnode, henv, hchk⟩
    rcases List.mem_singleton.mp hit with rfl
    simp only [List.nil_append] at hveq
    subst hveq
    exact ⟨b', env', hnode, henv, hchk⟩
  · rintro ⟨b', env', hnode, henv, hchk⟩
    exact ⟨([], b, env), List.mem_singleton.mpr rfl, v, b', env',
      (List.nil_append v).symm, hnode, henv, hchk⟩

theorem validVisit_singleton (b : SBlock) (env : Env) (v : BPath) :
    validVisit [([], b, env)] v ↔
      ∃ b' env', b.nodeAt v = some b' ∧ b.envAt env v = some env' := by
  constructor
  · rintro ⟨it, hit, p', b', env', hveq, hnode, henv⟩
    rcases List.mem_singleton.mp hit with rfl
    simp only [List.nil_append] at hveq
    subst hveq
    exact ⟨b', env', hnode, henv⟩
  · rintro ⟨b', env', hnode, henv⟩
    exact ⟨([], b, env), List.mem_singleton.mpr rfl, v, b', env',
      (List.nil_append v).symm, hnode, henv⟩

/-- **C3.** `resolveReference(conn, bind := true)` visits every block of
the subtree — the visit list has exactly one entry per node and every
node's path is visited, so the traversal never stops early on failure;
for every node it records the rebound Reference list, in which each
Reference is bound to the value found under its name in that node's
environment or is explicitly unresolved (`none`) when the name is absent
— never left with its old binding; and its result is `true` iff every
Reference of every node resolves in that node's environment. -/
theorem resolveReference_bind_spec (b : SBlock) (env : Env) :
    (resolveReference b env true).1 = b.allRefsOk env ∧
    (resolveReference b env true).2.1.length = b.size ∧
    (resolveReference b env true).2.2.length = b.size ∧
    (∀ (p : BPath) (b' : SBlock) (env' : Env),
        b.nodeAt p = some b' → b.envAt env p = some env' →
          p ∈ (resolveReference b env true).2.1 ∧
          (p, b'.refs.map (fun r => (r.1, lookupEnv env' r.1)))
            ∈ (resolveReference b env true).2.2) ∧
    (∀ v ∈ (resolveReference b env true).2.1,
        ∃ b' env', b.nodeAt v = some b' ∧ b.envAt env v = some env') ∧
    ((resolveReference b env true).1 = true ↔
      ∀ (p : BPath) (b' : SBlock) (env' : Env),
        b.nodeAt p = some b' → b.envAt env p = some env' →
          resolveRefsCheck env' b'.refs = true) := by
  have hqs : queueSize [([], b, env)] = b.size := by
    simp [queueSize]
  obtain ⟨h1, h2, h3, h4, h5⟩ :=
    resolveBFS_bind_spec (queueSize [([], b, env)]) [([], b, env)] true le_rfl
  have h1' : (resolveReference b env true).1 = b.allRefsOk env := by
    rw [resolveReference, h1]
    simp
  refine ⟨h1', by rw [resolveReference, h2, hqs],
    by rw [resolveReference, h3, hqs], ?_, ?_, ?_⟩
  · intro p b' env' hnode henv
    have := h4 ([], b, env) (List.mem_singleton.mpr rfl) p b' env' hnode henv
    simpa using this
  · intro v hv
    exact (validVisit_singleton b env v).mp (h5 v hv)
  · rw [h1']
    exact SBlock.allRefsOk_iff b env

/-- **C2.** `resolveReference(conn, bind := false)` never mutates any
Reference's bound value anywhere in the subtree — the mutation record is
empty for every block tree and every environment, whatever the outcome —
and it returns `false` exactly when some Reference cannot resolve, in
which case the visit sequence consists of blocks that all passed their
own Reference check followed by one final block that failed it: the
traversal returns at the first unresolvable Reference and visits no
further blocks. -/
theorem resolveReference_nobind_spec (b : SBlock) (env : Env) :
    (resolveReference b env false).2.2 = [] ∧
    (resolveReference b env false).1 = b.allRefsOk env ∧
    ((resolveReference b env false).1 = false →
      ∃ vpre plast,
        (resolveReference b env false).2.1 = vpre ++ [plast] ∧
        (∀ v ∈ vpre, ∃ b' env', b.nodeAt v = some b' ∧
            b.envAt env v = some env' ∧
            resolveRefsCheck env' b'.refs = true) ∧
        (∃ b' env', b.nodeAt plast = some b' ∧
            b.envAt env plast = some env' ∧
            resolveRefsCheck env' b'.refs = false)) := by
  obtain ⟨h1, h2, h3⟩ :=
    resolveBFS_nobind_spec (queueSize [([], b, env)]) [([], b, env)] true
      le_rfl
  have h2' : (resolveReference b env false).1 = b.allRefsOk env := by
    rw [resolveReference, h2]
    simp
  refine ⟨h1, h2', ?_⟩
  intro hfail
  obtain ⟨vpre, plast, hvis, hpre, hlast⟩ := h3 rfl hfail
  exact ⟨vpre, plast, hvis,
    fun v hv => (checkedVisit_singleton true b env v).mp (hpre v hv),
    (checkedVisit_singleton false b env plast).mp hlast⟩

/-! ## Type inference (`clearTypes` / `infer` / `updateTypeInference`, C6)

`Blockly.Block.prototype.updateTypeInference` (block.js:1648-1656) runs
the block's `clearTypes` (when resetting) and then its `infer` with the
empty environment.  We embed the closed universe of expression blocks
needed: `int_typed` and `logic_boolean_typed` literals (which implement
neither hook — `callInfer_`, block.js:1781-1791, then falls back to the
child's output type expression, and `callClearTypes_`, block.js:1797-1803,
skips them), `int_arithmetic_typed` (whose sockets are all concrete `INT`)
and `logic_compare_typed` (which owns one generated type variable shared
by its two value sockets).  Value inputs may be unconnected.

A generated type variable is identified by the path of the
`logic_compare_typed` node that owns it; the binding store maps such
paths to ground types.  `unify` and `clear` are modelled from the spec
(§4.1): the `RenderedTypeExpr` class is outside the source surface.
In this universe every `infer` returns a concrete type (INT or BOOL), so
`unify` is only ever called with a concrete left-hand side; a unification
of two concrete types either matches (nullary constructors, nothing to
recurse into) or is the recoverable mismatch the spec leaves as a
per-socket failure — in both cases the store is unchanged.
-/

/-- Ground types of the closed universe. -/
inductive GTy where
  | gint
  | gbool
  deriving DecidableEq, Repr

/-- A path of child indices identifying a node of the block tree, and
thereby the type variable that node owns (if any). -/
abbrev TPath := List Nat

/-- The binding store of the type-variable arena (later entries are
shadowed). -/
abbrev TStore := List (TPath × GTy)

/-- Type expressions of this universe: a type variable owned by the node
at a path, or a concrete nullary constructor. -/
inductive TyI where
  | ivar (q : TPath)
  | iint
  | ibool
  deriving DecidableEq, Repr

/-- The blocks of the universe; `arith` is `int_arithmetic_typed`
(value inputs 'A', 'B'), `cmp` is `logic_compare_typed` (value inputs
'A', 'B'), with possibly-unconnected inputs. -/
inductive TBlock where
  | intLit
  | boolLit
  | arith (a b : Option TBlock)
  | cmp (a b : Option TBlock)

def lookupT (s : TStore) (q : TPath) : Option GTy :=
  (s.find? (fun e => e.1 = q)).map (·.2)

/-- Binding an unbound variable (the variable side of `unify`). -/
def bindT (s : TStore) (q : TPath) (g : GTy) : TStore :=
  (q, g) :: s

/-- `clear` on a type variable: back to fresh unbound state (spec §4.1). -/
def clearV (s : TStore) (q : TPath) : TStore :=
  s.filter (fun e => ¬ e.1 = q)

/-- `resolve` (spec §4.1): the representative concrete type, or `none`
for an unbound variable. -/
def TyI.resolveT (t : TyI) (s : TStore) : Option GTy :=
  match t with
  | .ivar q => lookupT s q
  | .iint => some .gint
  | .ibool => some .gbool

/-- `unify(t1, t2)` (modelled from spec §4.1): an unbound variable is
bound to the other side's concrete type; two concretes recurse into
children (none here) or signal the recoverable mismatch; two unbound
variables would be linked, a case that cannot arise in this universe
because every `infer` result is concrete. -/
def unifyT (t1 t2 : TyI) (s : TStore) : TStore :=
  match t1.resolveT s, t2.resolveT s with
  | some _, some _ => s
  | some g1, none =>
    match t2 with
    | .ivar q => bindT s q g1
    | _ => s
  | none, some g2 =>
    match t1 with
    | .ivar q => bindT s q g2
    | _ => s
  | none, none => s

/-- The output type expression a child contributes through `callInfer_`:
for blocks with an `infer` it is that function's return value, otherwise
the output connection's type expression — concrete in every case of this
universe. -/
def TBlock.outTy : TBlock → TyI
  | .intLit => .iint
  | .boolLit => .ibool
  | .arith _ _ => .iint
  | .cmp _ _ => .ibool

/-- The `infer` pass rooted at a node (block.js:2063-2073 for
`int_arithmetic_typed`, block.js:1940-1949 for `logic_compare_typed`;
literals contribute their output type without any pass of their own).
Returns the updated store and the type the node's `infer` returns. -/
def TBlock.inferT : TBlock → TPath → TStore → TStore × TyI
  | .intLit, _, s => (s, .iint)
  | .boolLit, _, s => (s, .ibool)
  | .arith a b, p, s =>
    let r1 : TStore × Option TyI :=
      match a with
      | none => (s, none)
      | some c => ((c.inferT (p ++ [0]) s).1, some c.outTy)
    let r2 : TStore × Option TyI :=
      match b with
      | none => (r1.1, none)
      | some c => ((c.inferT (p ++ [1]) r1.1).1, some c.outTy)
    let s3 := match r1.2 with
      | none => r2.1
      | some t => unifyT t .iint r2.1
    let s4 := match r2.2 with
      | none => s3
      | some t => unifyT t .iint s3
    (s4, .iint)
  | .cmp a b, p, s =>
    let r1 : TStore × Option TyI :=
      match a with
      | none => (s, none)
      | some c => ((c.inferT (p ++ [0]) s).1, some c.outTy)
    let r2 : TStore × Option TyI :=
      match b with
      | none => (r1.1, none)
      | some c => ((c.inferT (p ++ [1]) r1.1).1, some c.outTy)
    let s3 := match r1.2 with
      | none => r2.1
      | some t => unifyT t (.ivar p) r2.1
    let s4 := match r2.2 with
      | none => s3
      | some t => unifyT t (.ivar p) s3
    (s4, .ibool)

/-- The `clearTypes` pass rooted at a node (block.js:2058-2061 for
`int_arithmetic_typed`: children only; block.js:1934-1938 for
`logic_compare_typed`: the own variable first, then the children;
literals implement no `clearTypes` and are skipped by
`callClearTypes_`). -/
def TBlock.clearT : TBlock → TPath → TStore → TStore
  | .intLit, _, s => s
  | .boolLit, _, s => s
  | .arith a b, p, s =>
    let s1 := match a with
      | none => s
      | some c => c.clearT (p ++ [0]) s
    match b with
    | none => s1
    | some c => c.clearT (p ++ [1]) s1
  | .cmp a b, p, s =>
    let s0 := clearV s p
    let s1 := match a with
      | none => s0
      | some c => c.clearT (p ++ [0]) s0
    match b with
    | none => s1
    | some c => c.clearT (p ++ [1]) s1

/-- `Blockly.Block.prototype.updateTypeInference` (block.js:1648-1656):
reset first when asked, then infer from the root with the empty
environment. -/
def updateTypeInference (t : TBlock) (reset : Bool) (s : TStore) : TStore :=
  let s1 := if reset then t.clearT [] s else s
  (t.inferT [] s1).1

/-- The type variables owned by the nodes of a subtree. -/
def TBlock.varsOf : TBlock → TPath → List TPath
  | .intLit, _ => []
  | .boolLit, _ => []
  | .arith a b, p =>
    (match a with | none => [] | some c => c.varsOf (p ++ [0])) ++
    (match b with | none => [] | some c => c.varsOf (p ++ [1]))
  | .cmp a b, p =>
    p ::
    ((match a with | none => [] | some c => c.varsOf (p ++ [0])) ++
     (match b with | none => [] | some c => c.varsOf (p ++ [1])))

/-- The type expressions sitting on the sockets (output connection and
value-input connections) of every node of the subtree. -/
def TBlock.socketTys : TBlock → TPath → List TyI
  | .intLit, _ => [.iint]
  | .boolLit, _ => [.ibool]
  | .arith a b, p =>
    [.iint, .iint, .iint] ++
    (match a with | none => [] | some c => c.socketTys (p ++ [0])) ++
    (match b with | none => [] | some c => c.socketTys (p ++ [1]))
  | .cmp a b, p =>
    [.ibool, .ivar p, .ivar p] ++
    (match a with | none => [] | some c => c.socketTys (p ++ [0])) ++
    (match b with | none => [] | some c => c.socketTys (p ++ [1]))

/-- The resolved concrete type of every socket of the tree. -/
def resolvedSockets (t : TBlock) (s : TStore) : List (Option GTy) :=
  (t.socketTys []).map (fun ty => ty.resolveT s)

theorem lookupT_cons (e : TPath × GTy) (s : TStore) (q' : TPath) :
    lookupT (e :: s) q' = if e.1 = q' then some e.2 else lookupT s q' := by
  by_cases h : e.1 = q' <;> simp [lookupT, List.find?, h]

theorem lookupT_bindT (s : TStore) (q : TPath) (g : GTy) (q' : TPath) :
    lookupT (bindT s q g) q' = if q = q' then some g else lookupT s q' :=
  lookupT_cons (q, g) s q'

theorem lookupT_clearV (s : TStore) (q q' : TPath) :
    lookupT (clearV s q) q' = if q' = q then none else lookupT s q' := by
  induction s with
  | nil => simp [lookupT, clearV]
  | cons e s ih =>
    by_cases he : e.1 = q
    · have hdrop : clearV (e :: s) q = clearV s q := by
        simp [clearV, he]
      rw [hdrop, ih]
      by_cases h : q' = q
      · simp [h]
      · have hne : ¬ e.1 = q' := by rw [he]; exact fun hh => h hh.symm
        rw [if_neg h, if_neg h, lookupT_cons, if_neg hne]
    · have hkeep : clearV (e :: s) q = e :: clearV s q := by
        simp [clearV, he]
      rw [hkeep, lookupT_cons]
      by_cases he' : e.1 = q'
      · have h : ¬ q' = q := fun hh => he (he'.trans hh)
        rw [if_pos he', if_neg h, lookupT_cons, if_pos he']
      · rw [if_neg he', ih]
        by_cases h : q' = q
        · simp [h]
        · rw [if_neg h, if_neg h, lookupT_cons, if_neg he']

/-- Node count of a typed block tree. -/
def TBlock.tsize : TBlock → Nat
  | .intLit => 1
  | .boolLit => 1
  | .arith a b =>
    1 + (match a with | none => 0 | some c => c.tsize)
      + (match b with | none => 0 | some c => c.tsize)
  | .cmp a b =>
    1 + (match a with | none => 0 | some c => c.tsize)
      + (match b with | none => 0 | some c => c.tsize)

/-- Structural induction over the typed block trees. -/
theorem TBlock.tsizeInduction {motive : TBlock → Prop}
    (hi : motive .intLit) (hb : motive .boolLit)
    (ha : ∀ a b, (∀ c, a = some c → motive c) →
      (∀ c, b = some c → motive c) → motive (.arith a b))
    (hc : ∀ a b, (∀ c, a = some c → motive c) →
      (∀ c, b = some c → motive c) → motive (.cmp a b)) :
    ∀ t, motive t := by
  have main : ∀ n t, TBlock.tsize t ≤ n → motive t := by
    intro n
    induction n with
    | zero =>
      intro t ht
      exfalso
      cases t with
      | intLit => simp [TBlock.tsize] at ht
      | boolLit => simp [TBlock.tsize] at ht
      | arith a b =>
        cases a <;> cases b <;> simp [TBlock.tsize] at ht
      | cmp a b =>
        cases a <;> cases b <;> simp [TBlock.tsize] at ht
    | succ n ih =>
      intro t ht
      match t with
      | .intLit => exact hi
      | .boolLit => exact hb
      | .arith a b =>
        refine ha a b (fun c hcc => ih c ?_) (fun c hcc => ih c ?_)
        · subst hcc
          cases b <;> simp [TBlock.tsize] at ht <;> omega
        · subst hcc
          cases a <;> simp [TBlock.tsize] at ht <;> omega
      | .cmp a b =>
        refine hc a b (fun c hcc => ih c ?_) (fun c hcc => ih c ?_)
        · subst hcc
          cases b <;> simp [TBlock.tsize] at ht <;> omega
        · subst hcc
          cases a <;> simp [TBlock.tsize] at ht <;> omega
  exact fun t => main (TBlock.tsize t) t le_rfl

/-- The ground type of a block's output type expression. -/
def gOut : TBlock → GTy
  | .intLit => .gint
  | .boolLit => .gbool
  | .arith _ _ => .gint
  | .cmp _ _ => .gbool

theorem outTy_resolveT (c : TBlock) (s : TStore) :
    (TBlock.outTy c).resolveT s = some (gOut c) := by
  cases c <;> rfl

/-- Unifying a child's (concrete) output type against the concrete `INT`
expectation of `int_arithmetic_typed` never changes the store: matching
heads have no children to recurse into, differing heads are the
recoverable mismatch. -/
theorem unify_out_iint (c : TBlock) (s : TStore) :
    unifyT c.outTy .iint s = s := by
  cases c <;> rfl

/-- Unifying a child's (concrete) output type against a type variable
binds the variable when it is unbound, else changes nothing. -/
theorem unify_out_var (c : TBlock) (q : TPath) (s : TStore) :
    unifyT c.outTy (.ivar q) s
      = match lookupT s q with
        | some _ => s
        | none => bindT s q (gOut c) := by
  cases c <;>
    (simp only [unifyT, TBlock.outTy, TyI.resolveT, gOut]
     cases lookupT s q <;> rfl)

theorem TBlock.varsOf_arith (a b : Option TBlock) (p : TPath) :
    (TBlock.arith a b).varsOf p =
      (match a with | none => [] | some c => c.varsOf (p ++ [0])) ++
      (match b with | none => [] | some c => c.varsOf (p ++ [1])) := by
  cases a <;> cases b <;> rfl

theorem TBlock.varsOf_cmp (a b : Option TBlock) (p : TPath) :
    (TBlock.cmp a b).varsOf p =
      p ::
      ((match a with | none => [] | some c => c.varsOf (p ++ [0])) ++
       (match b with | none => [] | some c => c.varsOf (p ++ [1]))) := by
  cases a <;> cases b <;> rfl

theorem TBlock.clearT_arith (a b : Option TBlock) (p : TPath) (s : TStore) :
    (TBlock.arith a b).clearT p s =
      (match b with
       | none => (match a with | none => s | some c => c.clearT (p ++ [0]) s)
       | some c => c.clearT (p ++ [1])
           (match a with | none => s | some c => c.clearT (p ++ [0]) s)) := by
  cases a <;> cases b <;> rfl

theorem TBlock.clearT_cmp (a b : Option TBlock) (p : TPath) (s : TStore) :
    (TBlock.cmp a b).clearT p s =
      (match b with
       | none => (match a with
           | none => clearV s p
           | some c => c.clearT (p ++ [0]) (clearV s p))
       | some c => c.clearT (p ++ [1])
           (match a with
            | none => clearV s p
            | some c => c.clearT (p ++ [0]) (clearV s p))) := by
  cases a <;> cases b <;> rfl

theorem varsOf_prefix :
    ∀ t (p q : TPath), q ∈ TBlock.varsOf t p → p <+: q := by
  intro t
  induction t using TBlock.tsizeInduction with
  | hi => intro p q hq; simp [TBlock.varsOf] at hq
  | hb => intro p q hq; simp [TBlock.varsOf] at hq
  | ha a b iha ihb =>
    intro p q hq
    rw [TBlock.varsOf_arith] at hq
    rcases List.mem_append.mp hq with h | h
    · match a, h with
      | some c, h =>
        exact ((p.prefix_append [0]).trans (iha c rfl _ _ h))
    · match b, h with
      | some c, h =>
        exact ((p.prefix_append [1]).trans (ihb c rfl _ _ h))
  | hc a b iha ihb =>
    intro p q hq
    rw [TBlock.varsOf_cmp] at hq
    rcases List.mem_cons.mp hq with rfl | hq2
    · exact List.prefix_rfl
    · rcases List.mem_append.mp hq2 with h | h
      · match a, h with
        | some c, h =>
          exact ((p.prefix_append [0]).trans (iha c rfl _ _ h))
      · match b, h with
        | some c, h =>
          exact ((p.prefix_append [1]).trans (ihb c rfl _ _ h))

/-- A variable of a subtree rooted under `p ++ [i]` is not `p` itself. -/
theorem varsOf_ne_parent {t : TBlock} {p : TPath} {i : Nat} {q : TPath}
    (h : q ∈ TBlock.varsOf t (p ++ [i])) : q ≠ p := by
  intro hq
  have hpre := varsOf_prefix t _ _ h
  have := hpre.length_le
  subst hq
  simp at this

/-- Variables of sibling subtrees are disjoint. -/
theorem varsOf_disjoint {t t' : TBlock} {p : TPath} {i j : Nat} {q : TPath}
    (hi : q ∈ TBlock.varsOf t (p ++ [i]))
    (hj : q ∈ TBlock.varsOf t' (p ++ [j])) :
    i = j := by
  have h1 := varsOf_prefix t _ _ hi
  have h2 := varsOf_prefix t' _ _ hj
  have hpre : (p ++ [i]) <+: (p ++ [j]) :=
    List.prefix_of_prefix_length_le h1 h2 (by simp)
  have heq : p ++ [i] = p ++ [j] := hpre.eq_of_length (by simp)
  have := List.append_cancel_left heq
  simpa using this

/-- `clearTypes` as a store transformer: it resets exactly the variables
the subtree owns and nothing else. -/
theorem clearT_lookup :
    ∀ t (p : TPath) (s : TStore) (q : TPath),
      lookupT (TBlock.clearT t p s) q
        = if q ∈ TBlock.varsOf t p then none else lookupT s q := by
  intro t
  induction t using TBlock.tsizeInduction with
  | hi => intro p s q; simp [TBlock.clearT, TBlock.varsOf]
  | hb => intro p s q; simp [TBlock.clearT, TBlock.varsOf]
  | ha a b iha ihb =>
    intro p s q
    rw [TBlock.clearT_arith, TBlock.varsOf_arith]
    match a, b with
    | none, none => simp
    | none, some cb =>
      simp only
      rw [ihb cb rfl]
      simp
    | some ca, none =>
      simp only
      rw [iha ca rfl]
      simp
    | some ca, some cb =>
      simp only
      rw [ihb cb rfl, iha ca rfl]
      by_cases h1 : q ∈ TBlock.varsOf ca (p ++ [0]) <;>
        by_cases h2 : q ∈ TBlock.varsOf cb (p ++ [1]) <;>
        simp [h1, h2]
  | hc a b iha ihb =>
    intro p s q
    rw [TBlock.clearT_cmp, TBlock.varsOf_cmp]
    match a, b with
    | none, none =>
      simp only
      rw [lookupT_clearV]
      by_cases h : q = p <;> simp [h]
    | none, some cb =>
      simp only
      rw [ihb cb rfl, lookupT_clearV]
      by_cases h : q = p <;> by_cases h2 : q ∈ TBlock.varsOf cb (p ++ [1]) <;>
        simp [h, h2]
    | some ca, none =>
      simp only
      rw [iha ca rfl, lookupT_clearV]
      by_cases h : q = p <;> by_cases h1 : q ∈ TBlock.varsOf ca (p ++ [0]) <;>
        simp [h, h1]
    | some ca, some cb =>
      simp only
      rw [ihb cb rfl, iha ca rfl, lookupT_clearV]
      by_cases h : q = p <;> by_cases h1 : q ∈ TBlock.varsOf ca (p ++ [0]) <;>
        by_cases h2 : q ∈ TBlock.varsOf cb (p ++ [1]) <;>
        simp [h, h1, h2]

theorem TBlock.inferT_arith_nn (p : TPath) (s : TStore) :
    (TBlock.arith none none).inferT p s = (s, .iint) := rfl

theorem TBlock.inferT_arith_sn (ca : TBlock) (p : TPath) (s : TStore) :
    (TBlock.arith (some ca) none).inferT p s
      = (unifyT ca.outTy .iint (ca.inferT (p ++ [0]) s).1, .iint) := rfl

theorem TBlock.inferT_arith_ns (cb : TBlock) (p : TPath) (s : TStore) :
    (TBlock.arith none (some cb)).inferT p s
      = (unifyT cb.outTy .iint (cb.inferT (p ++ [1]) s).1, .iint) := rfl

theorem TBlock.inferT_arith_ss (ca cb : TBlock) (p : TPath) (s : TStore) :
    (TBlock.arith (some ca) (some cb)).inferT p s
      = (unifyT cb.outTy .iint
          (unifyT ca.outTy .iint
            (cb.inferT (p ++ [1]) (ca.inferT (p ++ [0]) s).1).1),
         .iint) := rfl

theorem TBlock.inferT_cmp_nn (p : TPath) (s : TStore) :
    (TBlock.cmp none none).inferT p s = (s, .ibool) := rfl

theorem TBlock.inferT_cmp_sn (ca : TBlock) (p : TPath) (s : TStore) :
    (TBlock.cmp (some ca) none).inferT p s
      = (unifyT ca.outTy (.ivar p) (ca.inferT (p ++ [0]) s).1, .ibool) := rfl

theorem TBlock.inferT_cmp_ns (cb : TBlock) (p : TPath) (s : TStore) :
    (TBlock.cmp none (some cb)).inferT p s
      = (unifyT cb.outTy (.ivar p) (cb.inferT (p ++ [1]) s).1, .ibool) := rfl

theorem TBlock.inferT_cmp_ss (ca cb : TBlock) (p : TPath) (s : TStore) :
    (TBlock.cmp (some ca) (some cb)).inferT p s
      = (unifyT cb.outTy (.ivar p)
          (unifyT ca.outTy (.ivar p)
            (cb.inferT (p ++ [1]) (ca.inferT (p ++ [0]) s).1).1),
         .ibool) := rfl

/-- The lookup of a variable the selected unify may touch. -/
theorem unify_out_var_lookup (c : TBlock) (vq : TPath) (s : TStore)
    (q : TPath) :
    lookupT (unifyT c.outTy (.ivar vq) s) q
      = if vq = q ∧ lookupT s vq = none then some (gOut c)
        else lookupT s q := by
  rw [unify_out_var]
  match hv : lookupT s vq with
  | some g =>
    simp [hv]
  | none =>
    simp only [hv]
    rw [lookupT_bindT]
    by_cases h : vq = q <;> simp [h]

/-- Inference does not touch variables the subtree does not own. -/
theorem inferT_frame :
    ∀ t (p : TPath) (s : TStore) (q : TPath), q ∉ TBlock.varsOf t p →
      lookupT ((TBlock.inferT t p s).1) q = lookupT s q := by
  intro t
  induction t using TBlock.tsizeInduction with
  | hi => intro p s q _; rfl
  | hb => intro p s q _; rfl
  | ha a b iha ihb =>
    intro p s q hq
    rw [TBlock.varsOf_arith] at hq
    match a, b with
    | none, none => rfl
    | some ca, none =>
      simp only at hq
      rw [TBlock.inferT_arith_sn, unify_out_iint]
      exact iha ca rfl _ _ _ (by simpa using hq)
    | none, some cb =>
      simp only at hq
      rw [TBlock.inferT_arith_ns, unify_out_iint]
      exact ihb cb rfl _ _ _ (by simpa using hq)
    | some ca, some cb =>
      simp only at hq
      rw [List.mem_append] at hq
      push_neg at hq
      rw [TBlock.inferT_arith_ss, unify_out_iint, unify_out_iint]
      rw [ihb cb rfl _ _ _ hq.2, iha ca rfl _ _ _ hq.1]
  | hc a b iha ihb =>
    intro p s q hq
    rw [TBlock.varsOf_cmp] at hq
    rw [List.mem_cons] at hq
    push_neg at hq
    obtain ⟨hqp, hq'⟩ := hq
    match a, b with
    | none, none => rfl
    | some ca, none =>
      simp only at hq'
      rw [TBlock.inferT_cmp_sn, unify_out_var_lookup]
      rw [if_neg (by rintro ⟨rfl, -⟩; exact hqp rfl)]
      exact iha ca rfl _ _ _ (by simpa using hq')
    | none, some cb =>
      simp only at hq'
      rw [TBlock.inferT_cmp_ns, unify_out_var_lookup]
      rw [if_neg (by rintro ⟨rfl, -⟩; exact hqp rfl)]
      exact ihb cb rfl _ _ _ (by simpa using hq')
    | some ca, some cb =>
      simp only at hq'
      rw [List.mem_append] at hq'
      push_neg at hq'
      rw [TBlock.inferT_cmp_ss, unify_out_var_lookup]
      rw [if_neg (by rintro ⟨rfl, -⟩; exact hqp rfl)]
      rw [unify_out_var_lookup]
      rw [if_neg (by rintro ⟨rfl, -⟩; exact hqp rfl)]
      rw [ihb cb rfl _ _ _ hq'.2, iha ca rfl _ _ _ hq'.1]

/-- Inference rebinds the subtree's variables deterministically: two runs
from stores in which all subtree variables are unbound agree on every
subtree variable afterwards. -/
theorem inferT_det :
    ∀ t (p : TPath) (s s' : TStore),
      (∀ q ∈ TBlock.varsOf t p, lookupT s q = none) →
      (∀ q ∈ TBlock.varsOf t p, lookupT s' q = none) →
      ∀ q ∈ TBlock.varsOf t p,
        lookupT ((TBlock.inferT t p s).1) q
          = lookupT ((TBlock.inferT t p s').1) q := by
  intro t
  induction t using TBlock.tsizeInduction with
  | hi => intro p s s' _ _ q hq; simp [TBlock.varsOf] at hq
  | hb => intro p s s' _ _ q hq; simp [TBlock.varsOf] at hq
  | ha a b iha ihb =>
    intro p s s' hs hs' q hq
    simp only [TBlock.varsOf_arith] at hq hs hs'
    match a, b with
    | none, none => simp at hq
    | some ca, none =>
      simp only [List.append_nil] at hq hs hs'
      rw [TBlock.inferT_arith_sn, TBlock.inferT_arith_sn,
        unify_out_iint, unify_out_iint]
      exact iha ca rfl _ _ _ hs hs' q hq
    | none, some cb =>
      simp only [List.nil_append] at hq hs hs'
      rw [TBlock.inferT_arith_ns, TBlock.inferT_arith_ns,
        unify_out_iint, unify_out_iint]
      exact ihb cb rfl _ _ _ hs hs' q hq
    | some ca, some cb =>
      simp only at hq hs hs'
      rw [TBlock.inferT_arith_ss, TBlock.inferT_arith_ss,
        unify_out_iint, unify_out_iint, unify_out_iint, unify_out_iint]
      rcases List.mem_append.mp hq with hqa | hqb
      · have hnb : q ∉ TBlock.varsOf cb (p ++ [1]) := fun hqb =>
          absurd (varsOf_disjoint hqa hqb) (by omega)
        rw [inferT_frame cb _ _ _ hnb, inferT_frame cb _ _ _ hnb]
        exact iha ca rfl _ _ _
          (fun q' hq' => hs q' (List.mem_append_left _ hq'))
          (fun q' hq' => hs' q' (List.mem_append_left _ hq'))
          q hqa
      · have hna : ∀ q', q' ∈ TBlock.varsOf cb (p ++ [1]) →
            q' ∉ TBlock.varsOf ca (p ++ [0]) := fun q' h1 h0 =>
          absurd (varsOf_disjoint h0 h1) (by omega)
        refine ihb cb rfl _ _ _ ?_ ?_ q hqb
        · intro q' hq'
          rw [inferT_frame ca _ _ _ (hna q' hq')]
          exact hs q' (List.mem_append_right _ hq')
        · intro q' hq'
          rw [inferT_frame ca _ _ _ (hna q' hq')]
          exact hs' q' (List.mem_append_right _ hq')
  | hc a b iha ihb =>
    intro p s s' hs hs' q hq
    simp only [TBlock.varsOf_cmp] at hq hs hs'
    have hsp : lookupT s p = none := hs p (List.mem_cons_self _ _)
    have hsp' : lookupT s' p = none := hs' p (List.mem_cons_self _ _)
    have hnotpa : ∀ (c : TBlock), p ∉ TBlock.varsOf c (p ++ [0]) :=
      fun c h => absurd rfl (varsOf_ne_parent h)
    have hnotpb : ∀ (c : TBlock), p ∉ TBlock.varsOf c (p ++ [1]) :=
      fun c h => absurd rfl (varsOf_ne_parent h)
    match a, b with
    | none, none =>
      rw [TBlock.inferT_cmp_nn, TBlock.inferT_cmp_nn]
      simp only [List.append_nil] at hq
      rcases List.mem_cons.mp hq with rfl | h
      · rw [hsp, hsp']
      · simp at h
    | some ca, none =>
      simp only [List.append_nil] at hq hs hs'
      rw [TBlock.inferT_cmp_sn, TBlock.inferT_cmp_sn,
        unify_out_var_lookup, unify_out_var_lookup]
      have hca : ∀ q', q' ∈ TBlock.varsOf ca (p ++ [0]) →
          lookupT s q' = none :=
        fun q' h => hs q' (List.mem_cons_of_mem _ h)
      have hca' : ∀ q', q' ∈ TBlock.varsOf ca (p ++ [0]) →
          lookupT s' q' = none :=
        fun q' h => hs' q' (List.mem_cons_of_mem _ h)
      have hfp : lookupT ((ca.inferT (p ++ [0]) s).1) p = lookupT s p :=
        inferT_frame ca _ _ _ (hnotpa ca)
      have hfp' : lookupT ((ca.inferT (p ++ [0]) s').1) p = lookupT s' p :=
        inferT_frame ca _ _ _ (hnotpa ca)
      rcases List.mem_cons.mp hq with rfl | hqa
      · rw [hfp, hsp, hfp', hsp']
      · have hqnp : q ≠ p := varsOf_ne_parent hqa
        simp only [Ne.symm hqnp, false_and, if_false]
        exact iha ca rfl _ _ _ hca hca' q hqa
    | none, some cb =>
      simp only [List.nil_append] at hq hs hs'
      rw [TBlock.inferT_cmp_ns, TBlock.inferT_cmp_ns,
        unify_out_var_lookup, unify_out_var_lookup]
      have hcb : ∀ q', q' ∈ TBlock.varsOf cb (p ++ [1]) →
          lookupT s q' = none :=
        fun q' h => hs q' (List.mem_cons_of_mem _ h)
      have hcb' : ∀ q', q' ∈ TBlock.varsOf cb (p ++ [1]) →
          lookupT s' q' = none :=
        fun q' h => hs' q' (List.mem_cons_of_mem _ h)
      have hfp : lookupT ((cb.inferT (p ++ [1]) s).1) p = lookupT s p :=
        inferT_frame cb _ _ _ (hnotpb cb)
      have hfp' : lookupT ((cb.inferT (p ++ [1]) s').1) p = lookupT s' p :=
        inferT_frame cb _ _ _ (hnotpb cb)
      rcases List.mem_cons.mp hq with rfl | hqb
      · rw [hfp, hsp, hfp', hsp']
      · have hqnp : q ≠ p := varsOf_ne_parent hqb
        simp only [Ne.symm hqnp, false_and, if_false]
        exact ihb cb rfl _ _ _ hcb hcb' q hqb
    | some ca, some cb =>
      simp only at hq hs hs'
      rw [TBlock.inferT_cmp_ss, TBlock.inferT_cmp_ss]
      have hca : ∀ q', q' ∈ TBlock.varsOf ca (p ++ [0]) →
          lookupT s q' = none :=
        fun q' h => hs q' (List.mem_cons_of_mem _ (List.mem_append_left _ h))
      have hca' : ∀ q', q' ∈ TBlock.varsOf ca (p ++ [0]) →
          lookupT s' q' = none :=
        fun q' h => hs' q' (List.mem_cons_of_mem _ (List.mem_append_left _ h))
      have hdisj : ∀ q', q' ∈ TBlock.varsOf cb (p ++ [1]) →
          q' ∉ TBlock.varsOf ca (p ++ [0]) := fun q' h1 h0 =>
        absurd (varsOf_disjoint h0 h1) (by omega)
      have hcb2 : ∀ q', q' ∈ TBlock.varsOf cb (p ++ [1]) →
          lookupT ((ca.inferT (p ++ [0]) s).1) q' = none := by
        intro q' h
        rw [inferT_frame ca _ _ _ (hdisj q' h)]
        exact hs q' (List.mem_cons_of_mem _ (List.mem_append_right _ h))
      have hcb2' : ∀ q', q' ∈ TBlock.varsOf cb (p ++ [1]) →
          lookupT ((ca.inferT (p ++ [0]) s').1) q' = none := by
        intro q' h
        rw [inferT_frame ca _ _ _ (hdisj q' h)]
        exact hs' q' (List.mem_cons_of_mem _ (List.mem_append_right _ h))
      have hfp : lookupT ((cb.inferT (p ++ [1])
            (ca.inferT (p ++ [0]) s).1).1) p = lookupT s p := by
        rw [inferT_frame cb _ _ _ (hnotpb cb),
          inferT_frame ca _ _ _ (hnotpa ca)]
      have hfp' : lookupT ((cb.inferT (p ++ [1])
            (ca.inferT (p ++ [0]) s').1).1) p = lookupT s' p := by
        rw [inferT_frame cb _ _ _ (hnotpb cb),
          inferT_frame ca _ _ _ (hnotpa ca)]
      rcases List.mem_cons.mp hq with rfl | hq'
      · -- the node's own variable: the first unify binds it to `gOut ca`,
        -- the second then finds it bound and leaves the store unchanged
        simp only [unify_out_var_lookup]
        rw [hfp, hsp, hfp', hsp']
      · have hqnp : q ≠ p := by
          rcases List.mem_append.mp hq' with h | h
          · exact varsOf_ne_parent h
          · exact varsOf_ne_parent h
        simp only [unify_out_var_lookup]
        simp only [Ne.symm hqnp, false_and, if_false]
        rcases List.mem_append.mp hq' with hqa | hqb
        · have hnb : q ∉ TBlock.varsOf cb (p ++ [1]) := fun h =>
            absurd (varsOf_disjoint hqa h) (by omega)
          rw [inferT_frame cb _ _ _ hnb, inferT_frame cb _ _ _ hnb]
          exact iha ca rfl _ _ _ hca hca' q hqa
        · exact ihb cb rfl _ _ _ hcb2 hcb2' q hqb

theorem TBlock.socketTys_arith (a b : Option TBlock) (p : TPath) :
    (TBlock.arith a b).socketTys p =
      [.iint, .iint, .iint] ++
      (match a with | none => [] | some c => c.socketTys (p ++ [0])) ++
      (match b with | none => [] | some c => c.socketTys (p ++ [1])) := by
  cases a <;> cases b <;> rfl

theorem TBlock.socketTys_cmp (a b : Option TBlock) (p : TPath) :
    (TBlock.cmp a b).socketTys p =
      [.ibool, .ivar p, .ivar p] ++
      (match a with | none => [] | some c => c.socketTys (p ++ [0])) ++
      (match b with | none => [] | some c => c.socketTys (p ++ [1])) := by
  cases a <;> cases b <;> rfl

/-- Every type variable on a socket of the tree is owned by a node of the
tree. -/
theorem socketTys_vars :
    ∀ t (p : TPath) (ty : TyI), ty ∈ TBlock.socketTys t p →
      ∀ q, ty = .ivar q → q ∈ TBlock.varsOf t p := by
  intro t
  induction t using TBlock.tsizeInduction with
  | hi =>
    intro p ty hty q hq
    simp [TBlock.socketTys] at hty
    subst hty; cases hq
  | hb =>
    intro p ty hty q hq
    simp [TBlock.socketTys] at hty
    subst hty; cases hq
  | ha a b iha ihb =>
    intro p ty hty q hq
    subst hq
    rw [TBlock.socketTys_arith] at hty
    rw [TBlock.varsOf_arith]
    rcases List.mem_append.mp hty with h | h
    · rcases List.mem_append.mp h with h' | h'
      · simp at h'
      · match a, h' with
        | some c, h' =>
          exact List.mem_append_left _ (iha c rfl _ _ h' q rfl)
    · match b, h with
      | some c, h =>
        exact List.mem_append_right _ (ihb c rfl _ _ h q rfl)
  | hc a b iha ihb =>
    intro p ty hty q hq
    subst hq
    rw [TBlock.socketTys_cmp] at hty
    rw [TBlock.varsOf_cmp]
    rcases List.mem_append.mp hty with h | h
    · rcases List.mem_append.mp h with h' | h'
      · simp at h'
        subst h'
        exact List.mem_cons_self _ _
      · match a, h' with
        | some c, h' =>
          exact List.mem_cons_of_mem _
            (List.mem_append_left _ (iha c rfl _ _ h' q rfl))
    · match b, h with
      | some c, h =>
        exact List.mem_cons_of_mem _
          (List.mem_append_right _ (ihb c rfl _ _ h q rfl))

/-- **C6.** On a block tree on which no structural edit has occurred,
running `clearTypes()` followed by `infer()` — what
`updateTypeInference(true)` does — reproduces the same resolved concrete
type on every socket's Type Expression as the previous clear-then-infer
pass did, whatever binding store the tree started from: the reset pass is
idempotent. -/
theorem updateTypeInference_idempotent (t : TBlock) (s : TStore) :
    resolvedSockets t (updateTypeInference t true (updateTypeInference t true s))
      = resolvedSockets t (updateTypeInference t true s) := by
  unfold resolvedSockets
  apply List.map_congr_left
  intro ty hty
  match ty with
  | .iint => rfl
  | .ibool => rfl
  | .ivar q =>
    have hq : q ∈ TBlock.varsOf t [] := socketTys_vars t [] _ hty q rfl
    show lookupT _ q = lookupT _ q
    have hpre : ∀ (s0 : TStore), ∀ q' ∈ TBlock.varsOf t [],
        lookupT (TBlock.clearT t [] s0) q' = none := by
      intro s0 q' hq'
      rw [clearT_lookup, if_pos hq']
    show lookupT ((TBlock.inferT t []
        (TBlock.clearT t [] (updateTypeInference t true s))).1) q
      = lookupT ((TBlock.inferT t [] (TBlock.clearT t [] s)).1) q
    exact inferT_det t [] _ _ (hpre _) (hpre _) q hq

/-! ## Block graph: lifecycle, connections, disposal (C1, C4, C9, C10)

The mutable graph of blocks is embedded as an explicit state (`WS`):
block identities are `Nat`, connections are (owner, role) references, the
`target` relation is an edge list (stored superior-first), the parent
pointers are an association list, the workspace's top-block set and
block database (`blockDB_` membership / non-null `workspace` field,
merged as `live`) are lists, and the process-wide connection registry is
a list of connection references.  A static shape map tells which
connections each block owns, its inputs, its nominal checks and its
owned bound-variable Values.

`Blockly.Block.prototype.dispose` (block.js:243-304), `unplug`
(block.js:331-356), `getConnections_` (block.js:364-381), `setParent`
(block.js:510-540) and `getNextBlock` (block.js:459-461) are translated
from the source; `Blockly.Connection`'s `connect`, `disconnect`
and `dispose` and `Blockly.Input.dispose` are modelled from the spec
(§4.2: `connect` links and unregisters both connections and reparents
the inferior block's owner; `disconnect` is its inverse, leaving both
connections un-targeted and re-registered; `dispose` unregisters — and
an Input's connection is disposed with the Input, which is why
`getConnections_` runs on the already-emptied `inputList` and covers
only output/previous/next).  `dispose` recursion is fuelled; every
theorem quantifies over sufficient fuel or uses a concrete one.

Disposal emits an event trace recording the order of the teardown
steps.
-/

/-- The role of a connection on its owning block. -/
inductive CRole where
  | out
  | prev
  | next
  | inp (i : Nat)
  deriving DecidableEq, Repr

/-- A connection reference: owning block and role. -/
structure CRef where
  blk : Nat
  role : CRole
  deriving DecidableEq, Repr

/-- The static shape of a block: which connections it owns (`inputs` has
one entry per input, `true` when the input carries a connection), its
per-connection nominal checks (`none` = unconstrained) and how many
bound-variable Values it owns. -/
structure BlockShape where
  hasOut : Bool
  hasPrev : Bool
  hasNext : Bool
  inputs : List Bool
  checks : CRole → Option (List String)
  values : Nat

/-- The shape map of the workspace. -/
abbrev Shapes := Nat → BlockShape

/-- Teardown events. -/
inductive Ev where
  | unplugEv (b : Nat)
  | removeEv (b : Nat)
  | inputDisposeEv (b : Nat) (i : Nat)
  | connDisposeEv (c : CRef)
  | valueDisposeEv (b : Nat) (v : Nat)
  deriving DecidableEq, Repr

/-- The block the event concerns. -/
def Ev.blkOf : Ev → Nat
  | .unplugEv b => b
  | .removeEv b => b
  | .inputDisposeEv b _ => b
  | .connDisposeEv c => c.blk
  | .valueDisposeEv b _ => b

/-- The mutable state of the workspace. -/
structure WS where
  live : List Nat
  tops : List Nat
  parent : List (Nat × Nat)
  edges : List (CRef × CRef)
  registered : List CRef
  trace : List Ev
  deriving DecidableEq, Repr

/-- The block's `parentBlock_` pointer. -/
def parentLk (s : WS) (b : Nat) : Option Nat :=
  (s.parent.find? (fun e => e.1 = b)).map (·.2)

/-- The block's `childBlocks_` array, recovered from the parent
pointers. -/
def childrenOf (s : WS) (b : Nat) : List Nat :=
  s.live.filter (fun c => parentLk s c = some b)

/-- The edge a connection is part of, if any. -/
def edgeOf (s : WS) (c : CRef) : Option (CRef × CRef) :=
  s.edges.find? (fun e => e.1 = c ∨ e.2 = c)

/-- `Blockly.Connection.prototype.targetConnection`. -/
def target (s : WS) (c : CRef) : Option CRef :=
  match edgeOf s c with
  | none => none
  | some e => some (if e.1 = c then e.2 else e.1)

/-- `Blockly.Connection.prototype.isConnected`. -/
def isConnected (s : WS) (c : CRef) : Bool :=
  (target s c).isSome

/-- Remove a connection from the registry. -/
def unregister (s : WS) (c : CRef) : WS :=
  { s with registered := s.registered.filter (fun c' => ¬ c' = c) }

/-- Put a connection (back) into the registry. -/
def register (s : WS) (c : CRef) : WS :=
  if c ∈ s.registered then s else { s with registered := c :: s.registered }

/-- Overwrite the parent pointer. -/
def setParentPtr (s : WS) (b : Nat) (p : Option Nat) : WS :=
  { s with parent :=
      match p with
      | none => s.parent.filter (fun e => ¬ e.1 = b)
      | some pp => (b, pp) :: s.parent.filter (fun e => ¬ e.1 = b) }

/-- `workspace.removeTopBlock`. -/
def removeTop (s : WS) (b : Nat) : WS :=
  { s with tops := s.tops.filter (fun t => ¬ t = b) }

/-- `workspace.addTopBlock`. -/
def addTop (s : WS) (b : Nat) : WS :=
  if b ∈ s.tops then s else { s with tops := b :: s.tops }

/-- The mutation `setParent` performs once its assertions have passed
(block.js:510-540): detach from the old parent's child list or from the
top-block set, write the new parent pointer, attach to the new parent's
child list or to the top-block set. -/
def setParentU (s : WS) (b : Nat) (newParent : Option Nat) : WS :=
  if newParent = parentLk s b then s
  else
    let s1 := match parentLk s b with
      | some _ => s
      | none => removeTop s b
    let s2 := setParentPtr s1 b newParent
    match newParent with
    | some _ => s2
    | none => addTop s2 b

/-- `Blockly.Block.prototype.setParent` (block.js:510-540), with its two
throwing assertions: while an old parent exists, the block must no
longer be connected upward through its previous or output connection. -/
def setParent (sh : Shapes) (s : WS) (b : Nat) (newParent : Option Nat) :
    Except String WS :=
  if newParent = parentLk s b then .ok s
  else
    match parentLk s b with
    | some _ =>
      if (sh b).hasPrev && isConnected s ⟨b, .prev⟩ then
        .error "Still connected to previous block."
      else if (sh b).hasOut && isConnected s ⟨b, .out⟩ then
        .error "Still connected to parent block."
      else .ok (setParentU s b newParent)
    | none => .ok (setParentU s b newParent)

/-- `Blockly.Connection.prototype.disconnect`.  Modelled from the spec
(§4.2): the edge is removed, both connections are re-registered, and the
inferior block (edges are stored superior-first) is reparented to
top-level. -/
def disconnect (s : WS) (c : CRef) : WS :=
  match edgeOf s c with
  | none => s
  | some e =>
    let s1 := { s with edges := s.edges.filter (fun e' => ¬ (e'.1 = c ∨ e'.2 = c)) }
    let s2 := register (register s1 e.1) e.2
    setParentU s2 e.2.blk none

/-- `Blockly.Connection.prototype.connect`.  Modelled from the spec
(§4.2): the link is recorded (superior side first), both connections are
unregistered from the free-connection registry, and the inferior block's
owner becomes a child of the superior's. -/
def connect (s : WS) (c1 c2 : CRef) : WS :=
  let inf := if c1.role = .prev ∨ c1.role = .out then c1 else c2
  let sup := if c1.role = .prev ∨ c1.role = .out then c2 else c1
  let s1 := { s with edges := (sup, inf) :: s.edges }
  let s2 := unregister (unregister s1 c1) c2
  setParentU s2 inf.blk (some sup.blk)

/-- Nominal-check compatibility (`Blockly.Connection.prototype.checkType_`,
modelled from the spec §4.2: the check sets intersect or either side is
unconstrained). -/
def compatChecks : Option (List String) → Option (List String) → Bool
  | none, _ => true
  | _, none => true
  | some a, some b => a.any (fun x => b.contains x)

/-- The nominal check of a connection. -/
def checkOf (sh : Shapes) (c : CRef) : Option (List String) :=
  (sh c.blk).checks c.role

/-- `checkType_` between two connections. -/
def checkType (sh : Shapes) (c1 c2 : CRef) : Bool :=
  compatChecks (checkOf sh c1) (checkOf sh c2)

/-- `Blockly.Block.prototype.unplug` (block.js:331-356). -/
def unplug (sh : Shapes) (s : WS) (b : Nat) (healStack : Bool) : WS :=
  if (sh b).hasOut then
    if isConnected s ⟨b, .out⟩ then disconnect s ⟨b, .out⟩ else s
  else if (sh b).hasPrev then
    let previousTarget := target s ⟨b, .prev⟩
    let s1 := if isConnected s ⟨b, .prev⟩ then disconnect s ⟨b, .prev⟩ else s
    let nextTarget := if (sh b).hasNext then target s1 ⟨b, .next⟩ else none
    match healStack, nextTarget with
    | true, some nt =>
      let s2 := disconnect s1 nt
      match previousTarget with
      | some pt => if checkType sh pt nt then connect s2 pt nt else s2
      | none => s2
    | _, _ => s1
  else s

/-- Append a teardown event. -/
def pushEv (s : WS) (e : Ev) : WS :=
  { s with trace := s.trace ++ [e] }

/-- `Blockly.Connection.prototype.dispose`, modelled from the spec
(§4.2): the connection leaves the registry. -/
def disposeConn (s : WS) (c : CRef) : WS :=
  pushEv (unregister s c) (.connDisposeEv c)

/-- The events the input-disposal loop of block `b` emits
(`input.dispose()` per input, each disposing its fields and — modelled
from the spec — its connection). -/
def inputEvs (sh : Shapes) (b : Nat) : List Ev :=
  ((sh b).inputs.enum.map (fun ic =>
    .inputDisposeEv b ic.1 ::
      (if ic.2 then [.connDisposeEv ⟨b, .inp ic.1⟩] else []))).flatten

/-- The output/previous/next connections of `b`, in the order
`getConnections_` yields them after the input list has been emptied
(block.js:364-381, run from block.js:285-287). -/
def ownConns (sh : Shapes) (b : Nat) : List CRef :=
  (if (sh b).hasOut then [⟨b, .out⟩] else []) ++
  (if (sh b).hasPrev then [⟨b, .prev⟩] else []) ++
  (if (sh b).hasNext then [⟨b, .next⟩] else [])

/-- The events the connection-disposal loop of block `b` emits. -/
def connEvs (sh : Shapes) (b : Nat) : List Ev :=
  (ownConns sh b).map (fun c => .connDisposeEv c)

/-- The events the value-disposal loop of block `b` emits. -/
def valueEvs (sh : Shapes) (b : Nat) : List Ev :=
  (List.range (sh b).values).map (fun v => .valueDisposeEv b v)

/-- One step of the input-disposal loop. -/
def disposeInputStep (b : Nat) (s : WS) (ic : Nat × Bool) : WS :=
  let s1 := pushEv s (.inputDisposeEv b ic.1)
  if ic.2 then disposeConn s1 ⟨b, .inp ic.1⟩ else s1

/-- One step of the connection-disposal loop (block.js:288-294):
disconnect first when still connected, then dispose. -/
def disposeConnStep (s : WS) (c : CRef) : WS :=
  disposeConn (if isConnected s c then disconnect s c else s) c

/-- `Blockly.Block.prototype.dispose` (block.js:243-304), fuelled on the
recursion into the children.  An already-disposed block returns at once;
otherwise: unplug self (healing if asked), leave the top-block set and
the block database, dispose every child (the source iterates
`childBlocks_` backwards while each child removes itself; on a tree this
is the reversed child list), dispose the inputs with their fields and
connections, disconnect and dispose the remaining
output/previous/next connections, and dispose the owned Values. -/
def dispose (sh : Shapes) : Nat → Nat → Bool → WS → WS
  | 0, _, _, s => s
  | fuel + 1, b, healStack, s =>
    if b ∈ s.live then
      let s1 := pushEv (unplug sh s b healStack) (.unplugEv b)
      let s2 := pushEv
        { removeTop s1 b with live := (removeTop s1 b).live.filter (fun x => ¬ x = b) }
        (.removeEv b)
      let s3 := (childrenOf s2 b).reverse.foldl
        (fun st c => dispose sh fuel c false st) s2
      let s4 := (sh b).inputs.enum.foldl (disposeInputStep b) s3
      let s5 := (ownConns sh b).foldl disposeConnStep s4
      (List.range (sh b).values).foldl
        (fun st v => pushEv st (.valueDisposeEv b v)) s5
    else s

theorem register_live (s : WS) (c : CRef) : (register s c).live = s.live := by
  unfold register; split <;> rfl

theorem unregister_live (s : WS) (c : CRef) :
    (unregister s c).live = s.live := rfl

theorem setParentPtr_live (s : WS) (b : Nat) (p : Option Nat) :
    (setParentPtr s b p).live = s.live := by
  cases p <;> rfl

theorem removeTop_live (s : WS) (b : Nat) : (removeTop s b).live = s.live := rfl

theorem addTop_live (s : WS) (b : Nat) : (addTop s b).live = s.live := by
  unfold addTop; split <;> rfl

theorem setParentU_live (s : WS) (b : Nat) (p : Option Nat) :
    (setParentU s b p).live = s.live := by
  unfold setParentU
  split
  · rfl
  · cases hpp : parentLk s b <;> cases p <;>
      simp only [addTop_live, setParentPtr_live, removeTop_live]

theorem disconnect_live (s : WS) (c : CRef) :
    (disconnect s c).live = s.live := by
  unfold disconnect
  cases edgeOf s c with
  | none => rfl
  | some e =>
    simp only [setParentU_live, register_live]

theorem connect_live (s : WS) (c1 c2 : CRef) :
    (connect s c1 c2).live = s.live := by
  unfold connect
  simp only [setParentU_live, unregister_live]

theorem unplug_live (sh : Shapes) (s : WS) (b : Nat) (h : Bool) :
    (unplug sh s b h).live = s.live := by
  have hs1 : ∀ (c : CRef),
      (if isConnected s c = true then disconnect s c else s).live = s.live := by
    intro c
    split
    · exact disconnect_live s c
    · rfl
  unfold unplug
  by_cases ho : (sh b).hasOut = true
  · rw [if_pos ho]
    exact hs1 _
  · rw [if_neg ho]
    by_cases hp : (sh b).hasPrev = true
    · rw [if_pos hp]
      dsimp only
      cases h with
      | false => exact hs1 _
      | true =>
        cases hnt : (if (sh b).hasNext = true then
            target (if isConnected s ⟨b, .prev⟩ = true
              then disconnect s ⟨b, .prev⟩ else s) ⟨b, .next⟩
            else none) with
        | none => exact hs1 _
        | some nt =>
          cases hpt : target s ⟨b, .prev⟩ with
          | none =>
            dsimp only
            rw [disconnect_live]
            exact hs1 _
          | some pt =>
            dsimp only
            by_cases hck : checkType sh pt nt = true
            · rw [if_pos hck, connect_live, disconnect_live]
              exact hs1 _
            · rw [if_neg hck, disconnect_live]
              exact hs1 _
    · rw [if_neg hp]

theorem pushEv_live (s : WS) (e : Ev) : (pushEv s e).live = s.live := rfl

theorem disposeConn_live (s : WS) (c : CRef) :
    (disposeConn s c).live = s.live := rfl

theorem disposeInputStep_live (b : Nat) (s : WS) (ic : Nat × Bool) :
    (disposeInputStep b s ic).live = s.live := by
  unfold disposeInputStep
  split <;> rfl

theorem disposeConnStep_live (s : WS) (c : CRef) :
    (disposeConnStep s c).live = s.live := by
  unfold disposeConnStep
  simp only [disposeConn_live]
  split
  · exact disconnect_live s c
  · rfl

theorem foldl_live_eq {β : Type} (f : WS → β → WS)
    (hf : ∀ st c, (f st c).live = st.live) :
    ∀ (l : List β) (s : WS), (l.foldl f s).live = s.live := by
  intro l
  induction l with
  | nil => intro s; rfl
  | cons a l ih => intro s; rw [List.foldl_cons, ih, hf]

theorem foldl_live_subset {β : Type} (f : WS → β → WS)
    (hf : ∀ st c x, x ∈ (f st c).live → x ∈ st.live) :
    ∀ (l : List β) (s : WS) (x : Nat), x ∈ (l.foldl f s).live → x ∈ s.live := by
  intro l
  induction l with
  | nil => intro s x hx; exact hx
  | cons a l ih => intro s x hx; exact hf _ _ _ (ih _ _ hx)

/-- Disposal never resurrects: the live set only shrinks. -/
theorem dispose_live_subset (sh : Shapes) :
    ∀ (fuel b : Nat) (h : Bool) (s : WS) (x : Nat),
      x ∈ (dispose sh fuel b h s).live → x ∈ s.live := by
  intro fuel
  induction fuel with
  | zero => intro b h s x hx; exact hx
  | succ n ih =>
    intro b h s x hx
    rw [dispose] at hx
    by_cases hb : b ∈ s.live
    · rw [if_pos hb] at hx
      rw [foldl_live_eq _ (fun st v => pushEv_live st (.valueDisposeEv b v)),
        foldl_live_eq _ disposeConnStep_live,
        foldl_live_eq _ (disposeInputStep_live b)] at hx
      have hx3 := foldl_live_subset _ (fun st c x => ih c false st x) _ _ _ hx
      simp only [pushEv_live] at hx3
      rcases List.mem_filter.mp hx3 with ⟨hx1, -⟩
      have : (removeTop (pushEv (unplug sh s b h) (.unplugEv b)) b).live
          = s.live := by
        rw [removeTop_live, pushEv_live, unplug_live]
      rw [this] at hx1
      exact hx1
    · rw [if_neg hb] at hx
      exact hx

/-- Disposing a live block removes it from the live set. -/
theorem dispose_removes (sh : Shapes) (n : Nat) (b : Nat) (h : Bool)
    (s : WS) (hb : b ∈ s.live) :
    b ∉ (dispose sh (n + 1) b h s).live := by
  intro hmem
  rw [dispose, if_pos hb] at hmem
  rw [foldl_live_eq _ (fun st v => pushEv_live st (.valueDisposeEv b v)),
    foldl_live_eq _ disposeConnStep_live,
    foldl_live_eq _ (disposeInputStep_live b)] at hmem
  have hx3 := foldl_live_subset _
    (fun st c x => dispose_live_subset sh n c false st x) _ _ _ hmem
  simp only [pushEv_live] at hx3
  rcases List.mem_filter.mp hx3 with ⟨-, hbad⟩
  simp at hbad

/-- **C10.** `dispose` on an already-disposed block (one whose workspace
reference has been nulled, i.e. which is no longer in the block
database) returns immediately, changing nothing; consequently a second
`dispose` of the same block after a first one is a no-op, so `dispose`
is idempotent at the public interface. -/
theorem dispose_disposed_noop (sh : Shapes) (fuel fuel2 : Nat) (b : Nat)
    (h h2 : Bool) (s : WS) :
    (b ∉ s.live → dispose sh fuel b h s = s) ∧
    dispose sh fuel2 b h2 (dispose sh (fuel + 1) b h s)
      = dispose sh (fuel + 1) b h s := by
  have noop : ∀ (f : Nat) (hh : Bool) (st : WS), b ∉ st.live →
      dispose sh f b hh st = st := by
    intro f hh st hdead
    match f with
    | 0 => rfl
    | f + 1 => rw [dispose, if_neg hdead]
  refine ⟨noop fuel h s, ?_⟩
  by_cases hb : b ∈ s.live
  · exact noop _ _ _ (dispose_removes sh fuel b h s hb)
  · rw [noop _ _ _ hb]
    exact noop _ _ _ hb

/-- Witness for `dispose_disposed_noop` at a concrete input. -/
theorem dispose_disposed_noop_witness :
    (2 ∉ WS.live ⟨[1], [1], [], [], [], []⟩ →
      dispose (fun _ => ⟨false, false, false, [], fun _ => none, 0⟩) 3 2 false
        ⟨[1], [1], [], [], [], []⟩ = ⟨[1], [1], [], [], [], []⟩) ∧
    dispose (fun _ => ⟨false, false, false, [], fun _ => none, 0⟩) 5 2 true
      (dispose (fun _ => ⟨false, false, false, [], fun _ => none, 0⟩) 4 2 false
        ⟨[1], [1], [], [], [], []⟩)
      = dispose (fun _ => ⟨false, false, false, [], fun _ => none, 0⟩) 4 2 false
        ⟨[1], [1], [], [], [], []⟩ :=
  dispose_disposed_noop _ 3 5 2 false true _

/-- **C9.** `setParent(newParent)` with `newParent` different from the
current parent, while the block is (as a connected child must be) still
connected to another block through its previous or output connection, is
the fatal assertion of block.js:519-524: the call throws and the
reparenting is not performed. -/
theorem setParent_throws (sh : Shapes) (s : WS) (b p : Nat)
    (np : Option Nat) (hpar : parentLk s b = some p) (hne : np ≠ some p)
    (hconn : ((sh b).hasPrev = true ∧ isConnected s ⟨b, .prev⟩ = true) ∨
             ((sh b).hasOut = true ∧ isConnected s ⟨b, .out⟩ = true)) :
    ∃ msg, setParent sh s b np = .error msg := by
  unfold setParent
  rw [if_neg (by rw [hpar]; exact hne), hpar]
  by_cases h1 : ((sh b).hasPrev && isConnected s ⟨b, .prev⟩) = true
  · exact ⟨_, by rw [if_pos h1]⟩
  · rw [if_neg h1]
    rcases hconn with ⟨ha, hb⟩ | ⟨ha, hb⟩
    · exact absurd (by rw [ha, hb]; rfl) h1
    · exact ⟨_, by rw [if_pos (by rw [ha, hb]; rfl)]⟩

/-- Witness for `setParent_throws`: block 2 sits under block 1 through a
previous/next link; reparenting it to top level throws. -/
theorem setParent_throws_witness :
    ∃ msg, setParent
      (fun _ => ⟨false, true, true, [], fun _ => none, 0⟩)
      ⟨[1, 2], [1], [(2, 1)], [(⟨1, .next⟩, ⟨2, .prev⟩)], [], []⟩
      2 none = .error msg :=
  setParent_throws _ _ 2 1 none (by decide) (by decide)
    (Or.inl ⟨rfl, by decide⟩)

/-! ### Scenario D: a three-block statement stack A-B-C (blocks 1-2-3)

Block 2 sits under block 1 (edge 1.next–2.prev) and above block 3
(edge 2.next–3.prev); block 1 is the top block.  Free connections
(1.prev, 3.next) are in the registry, connected ones are not (spec
§4.2).  The shape gives every block previous/next connections and places
the nominal checks `chkA` on block 1's next connection and `chkC` on
block 3's previous connection. -/
def stackSh (chkA chkC : Option (List String)) : Shapes := fun b =>
  { hasOut := false, hasPrev := true, hasNext := true, inputs := [],
    checks := fun r =>
      if b = 1 ∧ r = CRole.next then chkA
      else if b = 3 ∧ r = CRole.prev then chkC
      else none,
    values := 0 }

/-- The stack A-B-C as a workspace state. -/
def stackWS : WS :=
  { live := [1, 2, 3], tops := [1],
    parent := [(2, 1), (3, 2)],
    edges := [(⟨1, .next⟩, ⟨2, .prev⟩), (⟨2, .next⟩, ⟨3, .prev⟩)],
    registered := [⟨1, .prev⟩, ⟨3, .next⟩],
    trace := [] }

/-- **C1, counterexample.**  Deleting the middle block of the stack via
`dispose(healStack := false)` does *not* leave block C as an unattached
top-level stack: `dispose` disposes all children (its own doc comment,
block.js:239-241, and block.js:276-279), and after `unplug(false)` block
C is still block B's child, so C is disposed with B — contradicting the
claim's healStack=false half. -/
theorem dispose_middle_noheal_counterexample :
    (dispose (stackSh none none) 5 2 false stackWS).live = [1] ∧
    3 ∉ (dispose (stackSh none none) 5 2 false stackWS).live ∧
    3 ∉ (dispose (stackSh none none) 5 2 false stackWS).tops := by
  decide

/-- **C1, amended.**  Deleting the middle block B of the stack via
`dispose(healStack)`: with `healStack = true` and compatible nominal
checks, B is unplugged from both neighbours and C's previous connection
is reconnected directly to A's next connection (C becomes A's child, no
registered connection of B survives); with `healStack = true` but
incompatible checks, C (already detached by the heal attempt) survives
as an unattached top-level stack; with `healStack = false`, C is B's
child at disposal time and is disposed together with B. -/
theorem dispose_middle_spec :
    (checkType (stackSh (some ["s"]) (some ["s"])) ⟨1, .next⟩ ⟨3, .prev⟩
      = true) ∧
    (dispose (stackSh (some ["s"]) (some ["s"])) 5 2 true stackWS).live
      = [1, 3] ∧
    (dispose (stackSh (some ["s"]) (some ["s"])) 5 2 true stackWS).edges
      = [(⟨1, .next⟩, ⟨3, .prev⟩)] ∧
    parentLk (dispose (stackSh (some ["s"]) (some ["s"])) 5 2 true stackWS) 3
      = some 1 ∧
    parentLk (dispose (stackSh (some ["s"]) (some ["s"])) 5 2 true stackWS) 2
      = none ∧
    (∀ c ∈ (dispose (stackSh (some ["s"]) (some ["s"])) 5 2 true
        stackWS).registered, ¬ c.blk = 2) ∧
    (checkType (stackSh (some ["a"]) (some ["b"])) ⟨1, .next⟩ ⟨3, .prev⟩
      = false) ∧
    (dispose (stackSh (some ["a"]) (some ["b"])) 5 2 true stackWS).live
      = [1, 3] ∧
    3 ∈ (dispose (stackSh (some ["a"]) (some ["b"])) 5 2 true stackWS).tops ∧
    (dispose (stackSh (some ["a"]) (some ["b"])) 5 2 true stackWS).edges
      = [] ∧
    (dispose (stackSh none none) 5 2 false stackWS).live = [1] := by
  decide

/-! ### Well-formedness of a workspace state, and ancestor reachability

`InvZ sh dep Z s` is the structural invariant of a workspace state,
relative to a set `Z` of "zombie" blocks (blocks taken out of the live
set whose disposal is still in progress, so that connections and parent
pointers may still mention them).  `dep` is a height certificate for the
tree: every child is strictly lower than its parent.  `Reach s b x`
says `b` is `x` or an ancestor of `x` — i.e. `x` is in the subtree that
`dispose(b)` walks. -/

/-- The connection exists on the block per its shape. -/
def roleOk (sh : Shapes) (c : CRef) : Bool :=
  match c.role with
  | .out => (sh c.blk).hasOut
  | .prev => (sh c.blk).hasPrev
  | .next => (sh c.blk).hasNext
  | .inp i => (sh c.blk).inputs.getD i false

/-- Superior connection roles (the parent side of a link). -/
def isSupRole : CRole → Bool
  | .next => true
  | .inp _ => true
  | _ => false

/-- Inferior connection roles (the child side of a link). -/
def isInfRole : CRole → Bool
  | .prev => true
  | .out => true
  | _ => false

/-- A block owns an output or a previous connection, never both
(`setOutput` / `setPreviousStatement` assert this, block.js:894-896 and
949-950). -/
def ShOk (sh : Shapes) : Prop :=
  ∀ b, ¬ ((sh b).hasOut = true ∧ (sh b).hasPrev = true)

/-- The structural invariant. -/
structure InvZ (sh : Shapes) (dep : Nat → Nat) (Z : List Nat) (s : WS) :
    Prop where
  liveNodup : s.live.Nodup
  liveZ : ∀ x ∈ s.live, x ∉ Z
  parentKeys : (s.parent.map (fun e => e.1)).Nodup
  parentChildLive : ∀ e ∈ s.parent, e.1 ∈ s.live
  parentParentOk : ∀ e ∈ s.parent, e.2 ∈ s.live ∨ e.2 ∈ Z
  parentDep : ∀ e ∈ s.parent, dep e.1 < dep e.2
  edgeEndsOk : ∀ e ∈ s.edges,
    (e.1.blk ∈ s.live ∨ e.1.blk ∈ Z) ∧ (e.2.blk ∈ s.live ∨ e.2.blk ∈ Z)
  edgeShape : ∀ e ∈ s.edges, roleOk sh e.1 = true ∧ roleOk sh e.2 = true
  edgeOrient : ∀ e ∈ s.edges, isSupRole e.1.role = true ∧
    isInfRole e.2.role = true ∧ parentLk s e.2.blk = some e.1.blk
  edgeUnique : (s.edges.map (fun e => e.1) ++ s.edges.map (fun e => e.2)).Nodup
  parentEdge : ∀ e ∈ s.parent, ∃ ed ∈ s.edges, ed.2.blk = e.1 ∧ ed.1.blk = e.2
  regLive : ∀ c ∈ s.registered, c.blk ∈ s.live ∨ c.blk ∈ Z
  regShape : ∀ c ∈ s.registered, roleOk sh c = true

/-- `b` is `x` itself or an ancestor of `x` along the parent pointers:
`x` belongs to the subtree rooted at `b`. -/
inductive Reach (s : WS) (b : Nat) : Nat → Prop where
  | refl : Reach s b b
  | step {x y : Nat} : parentLk s x = some y → Reach s b y → Reach s b x

/-- Association-list lookup facts for the parent map. -/
theorem parentLk_mem {s : WS} {b p : Nat} (h : parentLk s b = some p) :
    (b, p) ∈ s.parent := by
  unfold parentLk at h
  match hf : s.parent.find? (fun e => e.1 = b) with
  | none => rw [hf] at h; cases h
  | some e =>
    rw [hf] at h
    have hmem := List.mem_of_find?_eq_some hf
    have hpred := List.find?_some hf
    simp only [decide_eq_true_eq] at hpred
    have h2 : e.2 = p := Option.some.inj h
    have h1 : e.1 = b := hpred
    have : (e.1, e.2) ∈ s.parent := by simpa using hmem
    rw [h1, h2] at this
    exact this

theorem parentLk_none {s : WS} {b : Nat} (h : parentLk s b = none) :
    ∀ e ∈ s.parent, ¬ e.1 = b := by
  unfold parentLk at h
  match hf : s.parent.find? (fun e => e.1 = b) with
  | some e => rw [hf] at h; cases h
  | none =>
    have := List.find?_eq_none.mp hf
    intro e he hb
    have := this e he
    simp [hb] at this

theorem mem_parentLk {s : WS} {b p : Nat}
    (hkeys : (s.parent.map (fun e => e.1)).Nodup)
    (h : (b, p) ∈ s.parent) : parentLk s b = some p := by
  unfold parentLk
  match hf : s.parent.find? (fun e => e.1 = b) with
  | none =>
    have := List.find?_eq_none.mp hf (b, p) h
    simp at this
  | some e =>
    have hmem := List.mem_of_find?_eq_some hf
    have hpred := List.find?_some hf
    simp only [decide_eq_true_eq] at hpred
    have h2 : e.2 = p := by
      have h1 : e.1 = b := hpred
      have hab : (e.1, e.2) ∈ s.parent := by simpa using hmem
      have := List.inj_on_of_nodup_map hkeys hab h
      have := this (by simp [h1])
      exact congrArg Prod.snd this
    rw [hf]
    simp [h2]

/-- Along a parent chain, the depth certificate decreases. -/
theorem reach_dep_le {s : WS} {dep : Nat → Nat} {c x : Nat}
    (hdep : ∀ e ∈ s.parent, dep e.1 < dep e.2) (h : Reach s c x) :
    dep x ≤ dep c := by
  induction h with
  | refl => exact le_refl _
  | step hx _ ih => exact le_trans (le_of_lt (hdep _ (parentLk_mem hx))) ih

/-- Parent chains are linear: two blocks above the same block are
comparable. -/
theorem reach_linear {s : WS} {a c x : Nat} (h1 : Reach s a x) :
    Reach s c x → Reach s a c ∨ Reach s c a := by
  induction h1 with
  | refl => intro h2; exact Or.inr h2
  | step hx hr ih =>
    intro h2
    cases h2 with
    | refl => exact Or.inl (Reach.step hx hr)
    | step hx2 hr2 =>
      rw [hx] at hx2
      exact ih ((Option.some.inj hx2).symm ▸ hr2)

/-- A chain through `c` extends through `c`'s parent. -/
theorem reach_through {s : WS} {b c x : Nat} (h : Reach s c x)
    (hc : parentLk s c = some b) : Reach s b x := by
  induction h with
  | refl => exact Reach.step hc Reach.refl
  | step hx _ ih => exact Reach.step hx ih

/-- Reachability transfers to a state that agrees on the parent pointer
of every block of the chain. -/
theorem reach_transfer {s s' : WS} {c x : Nat}
    (hag : ∀ y, Reach s c y → parentLk s' y = parentLk s y)
    (h : Reach s c x) : Reach s' c x := by
  induction h with
  | refl => exact Reach.refl
  | step hx hr ih =>
    exact Reach.step (by rw [hag _ (Reach.step hx hr), hx]) ih

/-- Reachability transfers backwards along a state change that only
erases parent pointers. -/
theorem reach_mono {s s' : WS} {c x : Nat}
    (hmono : ∀ y py, parentLk s' y = some py → parentLk s y = some py)
    (h : Reach s' c x) : Reach s c x := by
  induction h with
  | refl => exact Reach.refl
  | step hx _ ih => exact Reach.step (hmono _ _ hx) ih

/-! ### Effect of the primitive operations on each state component -/

theorem find?_key_filter_self (l : List (Nat × Nat)) (b : Nat) :
    (l.filter (fun e => ¬ e.1 = b)).find? (fun e => e.1 = b) = none := by
  induction l with
  | nil => rfl
  | cons a l ih =>
    by_cases hab : a.1 = b
    · simp only [List.filter_cons, hab]
      simp only [decide_True, not_true_eq_false, decide_False, if_false]
      exact ih
    · simp only [List.filter_cons]
      rw [if_pos (by simpa using hab),
        List.find?_cons_of_neg _ (by simpa using hab)]
      exact ih

theorem find?_key_filter_ne (l : List (Nat × Nat)) (b y : Nat)
    (h : ¬ y = b) :
    (l.filter (fun e => ¬ e.1 = b)).find? (fun e => e.1 = y)
      = l.find? (fun e => e.1 = y) := by
  induction l with
  | nil => rfl
  | cons a l ih =>
    by_cases hab : a.1 = b
    · rw [List.filter_cons, if_neg (by simpa using hab), ih,
        List.find?_cons_of_neg _
          (by simp only [decide_eq_true_eq]; intro hya; exact h (hya ▸ hab))]
    · rw [List.filter_cons, if_pos (by simpa using hab)]
      by_cases hay : a.1 = y
      · rw [List.find?_cons_of_pos _ (by simpa using hay),
          List.find?_cons_of_pos _ (by simpa using hay)]
      · rw [List.find?_cons_of_neg _ (by simpa using hay),
          List.find?_cons_of_neg _ (by simpa using hay), ih]

theorem parentLk_setParentPtr_none (s : WS) (b y : Nat) :
    parentLk (setParentPtr s b none) y =
      if y = b then none else parentLk s y := by
  unfold parentLk setParentPtr
  by_cases hy : y = b
  · subst hy
    simp only [if_pos rfl]
    rw [find?_key_filter_self]
    rfl
  · rw [if_neg hy]
    simp only
    rw [find?_key_filter_ne _ _ _ hy]

theorem addTop_parent (s : WS) (b : Nat) : (addTop s b).parent = s.parent := by
  unfold addTop; split <;> rfl

theorem addTop_edges (s : WS) (b : Nat) : (addTop s b).edges = s.edges := by
  unfold addTop; split <;> rfl

theorem addTop_registered (s : WS) (b : Nat) :
    (addTop s b).registered = s.registered := by
  unfold addTop; split <;> rfl

theorem addTop_trace (s : WS) (b : Nat) : (addTop s b).trace = s.trace := by
  unfold addTop; split <;> rfl

theorem parentLk_setParentU_none (s : WS) (b y : Nat) :
    parentLk (setParentU s b none) y =
      if y = b then none else parentLk s y := by
  unfold setParentU
  by_cases h0 : (none : Option Nat) = parentLk s b
  · rw [if_pos h0]
    by_cases hy : y = b
    · subst hy; rw [if_pos rfl, ← h0]
    · rw [if_neg hy]
  · rw [if_neg h0]
    cases hp : parentLk s b with
    | none => exact absurd hp.symm h0
    | some p =>
      simp only
      unfold parentLk
      rw [addTop_parent]
      have := parentLk_setParentPtr_none s b y
      unfold parentLk at this
      exact this

theorem setParentU_none_edges (s : WS) (b : Nat) :
    (setParentU s b none).edges = s.edges := by
  unfold setParentU
  split
  · rfl
  · cases hp : parentLk s b <;> simp only <;>
      rw [addTop_edges] <;> cases b <;> rfl

theorem setParentU_none_registered (s : WS) (b : Nat) :
    (setParentU s b none).registered = s.registered := by
  unfold setParentU
  split
  · rfl
  · cases hp : parentLk s b <;> simp only <;>
      rw [addTop_registered] <;> rfl

theorem setParentU_none_trace (s : WS) (b : Nat) :
    (setParentU s b none).trace = s.trace := by
  unfold setParentU
  split
  · rfl
  · cases hp : parentLk s b <;> simp only <;>
      rw [addTop_trace] <;> rfl

theorem register_parent (s : WS) (c : CRef) :
    (register s c).parent = s.parent := by
  unfold register; split <;> rfl

theorem register_edges (s : WS) (c : CRef) :
    (register s c).edges = s.edges := by
  unfold register; split <;> rfl

theorem register_trace (s : WS) (c : CRef) :
    (register s c).trace = s.trace := by
  unfold register; split <;> rfl

theorem register_mem (s : WS) (c x : CRef) :
    x ∈ (register s c).registered ↔ x ∈ s.registered ∨ x = c := by
  unfold register
  split
  · constructor
    · exact fun h => Or.inl h
    · rintro (h | rfl)
      · exact h
      · assumption
  · constructor
    · intro h
      rcases List.mem_cons.mp h with h | h
      · exact Or.inr h
      · exact Or.inl h
    · rintro (h | rfl)
      · exact List.mem_cons_of_mem _ h
      · exact List.mem_cons_self _ _

theorem unregister_mem (s : WS) (c x : CRef) :
    x ∈ (unregister s c).registered ↔ x ∈ s.registered ∧ ¬ x = c := by
  unfold unregister
  simp [List.mem_filter]

theorem setParentU_none_parent (s : WS) (b : Nat) :
    (setParentU s b none).parent
      = s.parent.filter (fun e => ¬ e.1 = b) := by
  unfold setParentU
  by_cases h0 : (none : Option Nat) = parentLk s b
  · rw [if_pos h0]
    refine (List.filter_eq_self.mpr ?_).symm
    intro e he
    simpa using parentLk_none h0.symm e he
  · rw [if_neg h0]
    cases hp : parentLk s b with
    | none => exact absurd hp.symm h0
    | some p =>
      simp only
      rw [addTop_parent]
      rfl

theorem disconnect_of_none {s : WS} {c : CRef} (h : edgeOf s c = none) :
    disconnect s c = s := by
  unfold disconnect
  rw [h]

theorem disconnect_parent {s : WS} {c : CRef} {e : CRef × CRef}
    (hE : edgeOf s c = some e) :
    (disconnect s c).parent
      = s.parent.filter (fun en => ¬ en.1 = e.2.blk) := by
  unfold disconnect
  rw [hE]
  dsimp only
  rw [setParentU_none_parent, register_parent, register_parent]

theorem disconnect_edges {s : WS} {c : CRef} {e : CRef × CRef}
    (hE : edgeOf s c = some e) :
    (disconnect s c).edges
      = s.edges.filter (fun e' => ¬ (e'.1 = c ∨ e'.2 = c)) := by
  unfold disconnect
  rw [hE]
  dsimp only
  rw [setParentU_none_edges, register_edges, register_edges]

theorem disconnect_registered_mem {s : WS} {c : CRef} {e : CRef × CRef}
    (hE : edgeOf s c = some e) (x : CRef) :
    x ∈ (disconnect s c).registered ↔
      x ∈ s.registered ∨ x = e.1 ∨ x = e.2 := by
  unfold disconnect
  rw [hE]
  dsimp only
  rw [setParentU_none_registered, register_mem, register_mem]
  tauto

theorem disconnect_trace (s : WS) (c : CRef) :
    (disconnect s c).trace = s.trace := by
  unfold disconnect
  cases edgeOf s c with
  | none => rfl
  | some e =>
    dsimp only
    rw [setParentU_none_trace, register_trace, register_trace]

theorem disconnect_parentLk {s : WS} {c : CRef} {e : CRef × CRef}
    (hE : edgeOf s c = some e) (y : Nat) :
    parentLk (disconnect s c) y
      = if y = e.2.blk then none else parentLk s y := by
  unfold parentLk
  rw [disconnect_parent hE]
  by_cases hy : y = e.2.blk
  · rw [if_pos hy, hy, find?_key_filter_self]
    rfl
  · rw [if_neg hy, find?_key_filter_ne _ _ _ hy]

/-- Two edges sharing a connection are the same edge (each connection
belongs to at most one link). -/
theorem edge_same_conn {s : WS} {ed e : CRef × CRef} {c : CRef}
    (hU : (s.edges.map (fun x => x.1) ++ s.edges.map (fun x => x.2)).Nodup)
    (h1 : ed ∈ s.edges) (h2 : e ∈ s.edges)
    (hc1 : ed.1 = c ∨ ed.2 = c) (hc2 : e.1 = c ∨ e.2 = c) : ed = e := by
  have hdisj := List.disjoint_of_nodup_append hU
  have hn1 := List.Nodup.of_append_left hU
  have hn2 := List.Nodup.of_append_right hU
  rcases hc1 with hc1 | hc1 <;> rcases hc2 with hc2 | hc2
  · exact List.inj_on_of_nodup_map hn1 h1 h2 (by rw [hc1, hc2])
  · have hm1 : ed.1 ∈ s.edges.map (fun x => x.1) :=
      List.mem_map_of_mem (fun x => x.1) h1
    have hm2 : e.2 ∈ s.edges.map (fun x => x.2) :=
      List.mem_map_of_mem (fun x => x.2) h2
    rw [hc1] at hm1
    rw [hc2] at hm2
    exact (hdisj hm1 hm2).elim
  · have hm1 : ed.2 ∈ s.edges.map (fun x => x.2) :=
      List.mem_map_of_mem (fun x => x.2) h1
    have hm2 : e.1 ∈ s.edges.map (fun x => x.1) :=
      List.mem_map_of_mem (fun x => x.1) h2
    rw [hc1] at hm1
    rw [hc2] at hm2
    exact (hdisj hm2 hm1).elim
  · exact List.inj_on_of_nodup_map hn2 h1 h2 (by rw [hc1, hc2])

theorem InvZ_pushEv {sh : Shapes} {dep : Nat → Nat} {Z : List Nat} {s : WS}
    (h : InvZ sh dep Z s) (e : Ev) : InvZ sh dep Z (pushEv s e) :=
  ⟨h.liveNodup, h.liveZ, h.parentKeys, h.parentChildLive, h.parentParentOk,
    h.parentDep, h.edgeEndsOk, h.edgeShape, h.edgeOrient, h.edgeUnique,
    h.parentEdge, h.regLive, h.regShape⟩

theorem InvZ_unregister {sh : Shapes} {dep : Nat → Nat} {Z : List Nat}
    {s : WS} (h : InvZ sh dep Z s) (c : CRef) :
    InvZ sh dep Z (unregister s c) :=
  ⟨h.liveNodup, h.liveZ, h.parentKeys, h.parentChildLive, h.parentParentOk,
    h.parentDep, h.edgeEndsOk, h.edgeShape, h.edgeOrient, h.edgeUnique,
    h.parentEdge,
    fun x hx => h.regLive x (List.mem_of_mem_filter hx),
    fun x hx => h.regShape x (List.mem_of_mem_filter hx)⟩

theorem InvZ_register {sh : Shapes} {dep : Nat → Nat} {Z : List Nat}
    {s : WS} (h : InvZ sh dep Z s) (c : CRef)
    (hblk : c.blk ∈ s.live ∨ c.blk ∈ Z) (hrole : roleOk sh c = true) :
    InvZ sh dep Z (register s c) := by
  unfold register
  split
  · exact h
  · exact ⟨h.liveNodup, h.liveZ, h.parentKeys, h.parentChildLive,
      h.parentParentOk, h.parentDep, h.edgeEndsOk, h.edgeShape, h.edgeOrient,
      h.edgeUnique, h.parentEdge,
      fun x hx => by
        rcases List.mem_cons.mp hx with rfl | hx
        · exact hblk
        · exact h.regLive x hx,
      fun x hx => by
        rcases List.mem_cons.mp hx with rfl | hx
        · exact hrole
        · exact h.regShape x hx⟩

theorem isInfRole_eq {r : CRole} (h : isInfRole r = true) :
    r = .prev ∨ r = .out := by
  cases r with
  | prev => exact Or.inl rfl
  | out => exact Or.inr rfl
  | next => simp [isInfRole] at h
  | inp i => simp [isInfRole] at h

/-- `disconnect` preserves the invariant. -/
theorem InvZ_disconnect {sh : Shapes} {dep : Nat → Nat} {Z : List Nat}
    {s : WS} (hsh : ShOk sh) (h : InvZ sh dep Z s) (c : CRef) :
    InvZ sh dep Z (disconnect s c) := by
  cases hE : edgeOf s c with
  | none => rw [disconnect_of_none hE]; exact h
  | some e =>
    have hmemE : e ∈ s.edges := List.mem_of_find?_eq_some hE
    have hcE : e.1 = c ∨ e.2 = c := by
      have := List.find?_some hE
      simpa using this
    have hlive : (disconnect s c).live = s.live := disconnect_live s c
    have hpar := disconnect_parent hE
    have hedg := disconnect_edges hE
    have hreg := disconnect_registered_mem hE
    have hplk := disconnect_parentLk hE
    have hNoInf : ∀ ed ∈ (disconnect s c).edges, ¬ ed.2.blk = e.2.blk := by
      intro ed hed hblk
      rw [hedg] at hed
      have hedmem : ed ∈ s.edges := List.mem_of_mem_filter hed
      have hedfil : ¬ (ed.1 = c ∨ ed.2 = c) := by
        have := List.of_mem_filter hed
        simpa using this
      rcases h.edgeOrient ed hedmem with ⟨-, hinf1, -⟩
      rcases h.edgeOrient e hmemE with ⟨-, hinf2, -⟩
      have hsame : ed.2 = e.2 → False := by
        intro hq
        have hde : ed = e :=
          List.inj_on_of_nodup_map (List.Nodup.of_append_right h.edgeUnique)
            hedmem hmemE hq
        exact hedfil (hde.symm ▸ hcE)
      have hsame2 : ed.2.role = e.2.role → False := by
        intro hrr
        refine hsame ?_
        have h1 : ed.2 = ⟨ed.2.blk, ed.2.role⟩ := rfl
        have h2 : e.2 = ⟨e.2.blk, e.2.role⟩ := rfl
        rw [h1, h2, hblk, hrr]
      have ho1 : roleOk sh ed.2 = true := (h.edgeShape ed hedmem).2
      have ho2 : roleOk sh e.2 = true := (h.edgeShape e hmemE).2
      unfold roleOk at ho1 ho2
      rcases isInfRole_eq hinf1 with hr1 | hr1 <;>
        rcases isInfRole_eq hinf2 with hr2 | hr2
      · exact hsame2 (by rw [hr1, hr2])
      · rw [hr1] at ho1
        rw [hr2] at ho2
        exact hsh ed.2.blk ⟨by rw [hblk]; exact ho2, ho1⟩
      · rw [hr1] at ho1
        rw [hr2] at ho2
        exact hsh ed.2.blk ⟨ho1, by rw [hblk]; exact ho2⟩
      · exact hsame2 (by rw [hr1, hr2])
    refine ⟨?_, ?_, ?_, ?_, ?_, ?_, ?_, ?_, ?_, ?_, ?_, ?_, ?_⟩
    · rw [hlive]; exact h.liveNodup
    · rw [hlive]; exact h.liveZ
    · rw [hpar]
      exact h.parentKeys.sublist ((List.filter_sublist _).map _)
    · intro en hen
      rw [hpar] at hen
      rw [hlive]
      exact h.parentChildLive en (List.mem_of_mem_filter hen)
    · intro en hen
      rw [hpar] at hen
      rw [hlive]
      exact h.parentParentOk en (List.mem_of_mem_filter hen)
    · intro en hen
      rw [hpar] at hen
      exact h.parentDep en (List.mem_of_mem_filter hen)
    · intro ed hed
      rw [hedg] at hed
      rw [hlive]
      exact h.edgeEndsOk ed (List.mem_of_mem_filter hed)
    · intro ed hed
      rw [hedg] at hed
      exact h.edgeShape ed (List.mem_of_mem_filter hed)
    · intro ed hed
      have hed' := hed
      rw [hedg] at hed'
      have hmem : ed ∈ s.edges := List.mem_of_mem_filter hed'
      rcases h.edgeOrient ed hmem with ⟨hsup, hinf, hplk0⟩
      refine ⟨hsup, hinf, ?_⟩
      rw [hplk ed.2.blk, if_neg (hNoInf ed hed), hplk0]
    · rw [hedg]
      exact h.edgeUnique.sublist
        (List.Sublist.append ((List.filter_sublist _).map _)
          ((List.filter_sublist _).map _))
    · intro en hen
      rw [hpar] at hen
      have henm : en ∈ s.parent := List.mem_of_mem_filter hen
      have henk : ¬ en.1 = e.2.blk := by
        have := List.of_mem_filter hen
        simpa using this
      rcases h.parentEdge en henm with ⟨ed, hedm, hb, hp⟩
      refine ⟨ed, ?_, hb, hp⟩
      rw [hedg]
      refine List.mem_filter.mpr ⟨hedm, ?_⟩
      have : ¬ (ed.1 = c ∨ ed.2 = c) := by
        intro hcc
        have hede : ed = e := edge_same_conn h.edgeUnique hedm hmemE hcc hcE
        exact henk (by rw [← hb, hede])
      simpa using this
    · intro x hx
      rw [hlive]
      rcases (hreg x).mp hx with hx | rfl | rfl
      · exact h.regLive x hx
      · exact (h.edgeEndsOk e hmemE).1
      · exact (h.edgeEndsOk e hmemE).2
    · intro x hx
      rcases (hreg x).mp hx with hx | rfl | rfl
      · exact h.regShape x hx
      · exact (h.edgeShape e hmemE).1
      · exact (h.edgeShape e hmemE).2

theorem isConnected_false_edgeOf {s : WS} {c : CRef}
    (h : isConnected s c = false) : edgeOf s c = none := by
  unfold isConnected target at h
  cases hE : edgeOf s c with
  | none => rfl
  | some e => rw [hE] at h; simp at h

theorem isConnected_true_edgeOf {s : WS} {c : CRef}
    (h : isConnected s c = true) : ∃ e, edgeOf s c = some e := by
  unfold isConnected target at h
  cases hE : edgeOf s c with
  | none => rw [hE] at h; simp at h
  | some e => exact ⟨e, rfl⟩

/-- The edge found at an inferior connection has that connection as its
inferior side. -/
theorem edgeOf_inf {sh : Shapes} {dep : Nat → Nat} {Z : List Nat} {s : WS}
    (h : InvZ sh dep Z s) {b : Nat} {r : CRole} {e : CRef × CRef}
    (hE : edgeOf s ⟨b, r⟩ = some e) (hr : isInfRole r = true) :
    e.2 = ⟨b, r⟩ := by
  have hmem := List.mem_of_find?_eq_some hE
  have hc : e.1 = ⟨b, r⟩ ∨ e.2 = ⟨b, r⟩ := by
    simpa using List.find?_some hE
  rcases hc with hc | hc
  · rcases h.edgeOrient e hmem with ⟨hsup, -, -⟩
    rw [hc] at hsup
    cases r <;> simp [isSupRole, isInfRole] at hsup hr
  · exact hc

/-- A block none of whose (shape-supported) inferior connections is
connected has no parent. -/
theorem parent_none_of_unconnected {sh : Shapes} {dep : Nat → Nat}
    {Z : List Nat} {s : WS} (h : InvZ sh dep Z s) {b : Nat}
    (hnc : ∀ r, isInfRole r = true → roleOk sh ⟨b, r⟩ = true →
      isConnected s ⟨b, r⟩ = false) :
    parentLk s b = none := by
  cases hp : parentLk s b with
  | none => rfl
  | some p =>
    exfalso
    have hmem := parentLk_mem hp
    rcases h.parentEdge _ hmem with ⟨ed, hedm, hb2, hb1⟩
    rcases h.edgeOrient ed hedm with ⟨-, hinf, -⟩
    have he2 : ed.2 = ⟨b, ed.2.role⟩ := by
      have hq : ed.2 = ⟨ed.2.blk, ed.2.role⟩ := rfl
      rw [hq, hb2]
    have hrole : roleOk sh ⟨b, ed.2.role⟩ = true := by
      rw [← he2]
      exact (h.edgeShape ed hedm).2
    have hC := hnc ed.2.role hinf hrole
    have hEnone := isConnected_false_edgeOf hC
    have hfail := List.find?_eq_none.mp hEnone ed hedm
    simp only [decide_eq_true_eq, not_or] at hfail
    exact hfail.2 he2

/-- `unplug(healStack := false)`: the invariant is preserved, the block
loses its parent, every other parent pointer is untouched (and none is
created), and no event is emitted. -/
theorem unplug_false_spec {sh : Shapes} {dep : Nat → Nat} {Z : List Nat}
    {s : WS} (hsh : ShOk sh) (h : InvZ sh dep Z s) (b : Nat) :
    InvZ sh dep Z (unplug sh s b false) ∧
    parentLk (unplug sh s b false) b = none ∧
    (∀ y, ¬ y = b → parentLk (unplug sh s b false) y = parentLk s y) ∧
    (∀ y p, parentLk (unplug sh s b false) y = some p →
      parentLk s y = some p) ∧
    (unplug sh s b false).trace = s.trace := by
  have hdisc : ∀ (r : CRole), isInfRole r = true →
      isConnected s ⟨b, r⟩ = true →
      InvZ sh dep Z (disconnect s ⟨b, r⟩) ∧
      parentLk (disconnect s ⟨b, r⟩) b = none ∧
      (∀ y, ¬ y = b → parentLk (disconnect s ⟨b, r⟩) y = parentLk s y) ∧
      (∀ y p, parentLk (disconnect s ⟨b, r⟩) y = some p →
        parentLk s y = some p) ∧
      (disconnect s ⟨b, r⟩).trace = s.trace := by
    intro r hr hc
    rcases isConnected_true_edgeOf hc with ⟨e, hE⟩
    have he2 : e.2 = ⟨b, r⟩ := edgeOf_inf h hE hr
    have hb2 : e.2.blk = b := by rw [he2]
    refine ⟨InvZ_disconnect hsh h _, ?_, ?_, ?_, disconnect_trace s _⟩
    · rw [disconnect_parentLk hE, if_pos hb2.symm]
    · intro y hy
      rw [disconnect_parentLk hE, if_neg (by rw [hb2]; exact hy)]
    · intro y p hyp
      rw [disconnect_parentLk hE] at hyp
      by_cases hyb : y = e.2.blk
      · rw [if_pos hyb] at hyp; cases hyp
      · rw [if_neg hyb] at hyp; exact hyp
  unfold unplug
  by_cases ho : (sh b).hasOut = true
  · rw [if_pos ho]
    by_cases hc : isConnected s ⟨b, .out⟩ = true
    · rw [if_pos hc]
      exact hdisc .out rfl hc
    · rw [if_neg hc]
      have hnc : ∀ r, isInfRole r = true → roleOk sh ⟨b, r⟩ = true →
          isConnected s ⟨b, r⟩ = false := by
        intro r hr hrole
        rcases isInfRole_eq hr with rfl | rfl
        · exact absurd (⟨ho, hrole⟩ : _ ∧ _) (hsh b)
        · cases hcc : isConnected s ⟨b, .out⟩ with
          | false => rfl
          | true => exact absurd hcc hc
      exact ⟨h, parent_none_of_unconnected h hnc, fun y hy => rfl,
        fun y p hp => hp, rfl⟩
  · rw [if_neg ho]
    by_cases hp : (sh b).hasPrev = true
    · rw [if_pos hp]
      dsimp only
      by_cases hcp : isConnected s ⟨b, .prev⟩ = true
      · rw [if_pos hcp]
        exact hdisc .prev rfl hcp
      · rw [if_neg hcp]
        have hnc : ∀ r, isInfRole r = true → roleOk sh ⟨b, r⟩ = true →
            isConnected s ⟨b, r⟩ = false := by
          intro r hr hrole
          rcases isInfRole_eq hr with rfl | rfl
          · cases hcc : isConnected s ⟨b, .prev⟩ with
            | false => rfl
            | true => exact absurd hcc hcp
          · exact absurd hrole ho
        exact ⟨h, parent_none_of_unconnected h hnc, fun y hy => rfl,
          fun y p hpp => hpp, rfl⟩
    · rw [if_neg hp]
      have hnc : ∀ r, isInfRole r = true → roleOk sh ⟨b, r⟩ = true →
          isConnected s ⟨b, r⟩ = false := by
        intro r hr hrole
        rcases isInfRole_eq hr with rfl | rfl
        · exact absurd hrole hp
        · exact absurd hrole ho
      exact ⟨h, parent_none_of_unconnected h hnc, fun y hy => rfl,
        fun y p hpp => hpp, rfl⟩

/-- Rebuild the invariant for a state whose live set, parent map and
edges match a known-good state and whose registry only shrank. -/
theorem InvZ_of_fields {sh : Shapes} {dep : Nat → Nat} {Z : List Nat}
    {s s' : WS} (h : InvZ sh dep Z s)
    (hl : s'.live = s.live) (hp : s'.parent = s.parent)
    (he : s'.edges = s.edges)
    (hr : ∀ x, x ∈ s'.registered → x ∈ s.registered) : InvZ sh dep Z s' := by
  have hplk : ∀ y, parentLk s' y = parentLk s y := by
    intro y
    unfold parentLk
    rw [hp]
  refine ⟨?_, ?_, ?_, ?_, ?_, ?_, ?_, ?_, ?_, ?_, ?_, ?_, ?_⟩
  · rw [hl]; exact h.liveNodup
  · rw [hl]; exact h.liveZ
  · rw [hp]; exact h.parentKeys
  · rw [hp, hl]; exact h.parentChildLive
  · rw [hp, hl]; exact h.parentParentOk
  · rw [hp]; exact h.parentDep
  · rw [he, hl]; exact h.edgeEndsOk
  · rw [he]; exact h.edgeShape
  · intro e he'
    rw [he] at he'
    rcases h.edgeOrient e he' with ⟨h1, h2, h3⟩
    exact ⟨h1, h2, by rw [hplk]; exact h3⟩
  · rw [he]; exact h.edgeUnique
  · rw [hp, he]; exact h.parentEdge
  · intro x hx
    rw [hl]
    exact h.regLive x (hr x hx)
  · intro x hx
    exact h.regShape x (hr x hx)

/-- Removing an unplugged block from the top set and the block database
turns it into a zombie. -/
theorem InvZ_remove {sh : Shapes} {dep : Nat → Nat} {Z : List Nat} {s : WS}
    (h : InvZ sh dep Z s) {b : Nat} (hpn : parentLk s b = none) :
    InvZ sh dep (b :: Z)
      (pushEv { removeTop s b with
          live := (removeTop s b).live.filter (fun x => ¬ x = b) }
        (.removeEv b)) := by
  have promote : ∀ x, (x ∈ s.live ∨ x ∈ Z) →
      x ∈ s.live.filter (fun x => ¬ x = b) ∨ x ∈ b :: Z := by
    intro x hx
    by_cases hxb : x = b
    · exact Or.inr (hxb ▸ List.mem_cons_self b Z)
    · rcases hx with hx | hx
      · exact Or.inl (List.mem_filter.mpr ⟨hx, by simpa using hxb⟩)
      · exact Or.inr (List.mem_cons_of_mem _ hx)
  refine ⟨?_, ?_, ?_, ?_, ?_, ?_, ?_, ?_, ?_, ?_, ?_, ?_, ?_⟩
  · exact h.liveNodup.filter _
  · intro x hx
    rcases List.mem_filter.mp hx with ⟨hx1, hx2⟩
    simp only [decide_eq_true_eq] at hx2
    intro hmem
    rcases List.mem_cons.mp hmem with hxb | hxZ
    · exact hx2 hxb
    · exact h.liveZ x hx1 hxZ
  · exact h.parentKeys
  · intro en hen
    refine List.mem_filter.mpr ⟨h.parentChildLive en hen, ?_⟩
    simpa using parentLk_none hpn en hen
  · intro en hen
    exact promote _ (h.parentParentOk en hen)
  · exact h.parentDep
  · intro e he
    exact ⟨promote _ (h.edgeEndsOk e he).1, promote _ (h.edgeEndsOk e he).2⟩
  · exact h.edgeShape
  · exact h.edgeOrient
  · exact h.edgeUnique
  · exact h.parentEdge
  · intro c hc
    exact promote _ (h.regLive c hc)
  · exact h.regShape

/-- Once nothing in the state mentions the zombie any more, it can be
dropped. -/
theorem InvZ_unzombie {sh : Shapes} {dep : Nat → Nat} {Z : List Nat}
    {s : WS} {b : Nat} (h : InvZ sh dep (b :: Z) s)
    (hpar : ∀ en ∈ s.parent, ¬ en.2 = b)
    (hedge : ∀ e ∈ s.edges, ¬ e.1.blk = b ∧ ¬ e.2.blk = b)
    (hreg : ∀ c ∈ s.registered, ¬ c.blk = b) :
    InvZ sh dep Z s := by
  have demote : ∀ x, (x ∈ s.live ∨ x ∈ b :: Z) → ¬ x = b →
      x ∈ s.live ∨ x ∈ Z := by
    intro x hx hxb
    rcases hx with hx | hx
    · exact Or.inl hx
    · rcases List.mem_cons.mp hx with hxb' | hxZ
      · exact absurd hxb' hxb
      · exact Or.inr hxZ
  refine ⟨h.liveNodup, ?_, h.parentKeys, h.parentChildLive, ?_, h.parentDep,
    ?_, h.edgeShape, h.edgeOrient, h.edgeUnique, h.parentEdge, ?_,
    h.regShape⟩
  · intro x hx hxZ
    exact h.liveZ x hx (List.mem_cons_of_mem _ hxZ)
  · intro en hen
    exact demote _ (h.parentParentOk en hen) (hpar en hen)
  · intro e he
    exact ⟨demote _ (h.edgeEndsOk e he).1 (hedge e he).1,
      demote _ (h.edgeEndsOk e he).2 (hedge e he).2⟩
  · intro c hc
    exact demote _ (h.regLive c hc) (hreg c hc)

theorem edgeOf_none_of {s : WS} {c : CRef}
    (h : ∀ e ∈ s.edges, ¬ (e.1 = c ∨ e.2 = c)) : edgeOf s c = none :=
  List.find?_eq_none.mpr (fun e he => by simpa using h e he)

theorem disposeConn_trace (s : WS) (c : CRef) :
    (disposeConn s c).trace = s.trace ++ [Ev.connDisposeEv c] := rfl

theorem disposeConn_registered_mem (s : WS) (c x : CRef) :
    x ∈ (disposeConn s c).registered ↔ x ∈ s.registered ∧ ¬ x = c :=
  unregister_mem s c x

theorem isConnected_of_edgeOf_none {s : WS} {c : CRef}
    (h : edgeOf s c = none) : isConnected s c = false := by
  unfold isConnected target
  rw [h]
  rfl

/-- The bound-variable-value loop only emits events. -/
theorem valuesFold_spec (b : Nat) : ∀ (l : List Nat) (s : WS),
    (l.foldl (fun st v => pushEv st (.valueDisposeEv b v)) s)
      = { s with trace :=
            s.trace ++ l.map (fun v => Ev.valueDisposeEv b v) } := by
  intro l
  induction l with
  | nil => intro s; simp
  | cons a l ih =>
    intro s
    rw [List.foldl_cons, ih]
    simp [pushEv, List.append_assoc]

/-- The connection-disposal loop, run when none of the listed
connections is part of an edge any more: it unregisters each connection
and emits the matching events. -/
theorem connsFold_spec : ∀ (l : List CRef) (s : WS),
    (∀ c ∈ l, ∀ e ∈ s.edges, ¬ (e.1 = c ∨ e.2 = c)) →
    (l.foldl disposeConnStep s).live = s.live ∧
    (l.foldl disposeConnStep s).parent = s.parent ∧
    (l.foldl disposeConnStep s).edges = s.edges ∧
    (l.foldl disposeConnStep s).trace
      = s.trace ++ l.map (fun c => Ev.connDisposeEv c) ∧
    (∀ x, x ∈ (l.foldl disposeConnStep s).registered ↔
      x ∈ s.registered ∧ ¬ x ∈ l) := by
  intro l
  induction l with
  | nil =>
    intro s _
    exact ⟨rfl, rfl, rfl, by simp, fun x => by simp⟩
  | cons c l ih =>
    intro s hno
    have hstep : disposeConnStep s c = disposeConn s c := by
      unfold disposeConnStep
      rw [if_neg (by
        rw [isConnected_of_edgeOf_none
          (edgeOf_none_of (hno c (List.mem_cons_self c l)))]
        exact Bool.false_ne_true)]
    rw [List.foldl_cons, hstep]
    have hfields : (disposeConn s c).live = s.live ∧
        (disposeConn s c).parent = s.parent ∧
        (disposeConn s c).edges = s.edges ∧
        (disposeConn s c).trace = s.trace ++ [Ev.connDisposeEv c] := by
      exact ⟨rfl, rfl, rfl, rfl⟩
    have hno' : ∀ c' ∈ l, ∀ e ∈ (disposeConn s c).edges,
        ¬ (e.1 = c' ∨ e.2 = c') := by
      intro c' hc' e he
      rw [hfields.2.2.1] at he
      exact hno c' (List.mem_cons_of_mem _ hc') e he
    rcases ih (disposeConn s c) hno' with ⟨h1, h2, h3, h4, h5⟩
    refine ⟨by rw [h1, hfields.1], by rw [h2, hfields.2.1],
      by rw [h3, hfields.2.2.1], ?_, ?_⟩
    · rw [h4, hfields.2.2.2]
      simp [List.append_assoc]
    · intro x
      rw [h5 x]
      have : x ∈ (disposeConn s c).registered ↔
          x ∈ s.registered ∧ ¬ x = c := by
        unfold disposeConn
        exact unregister_mem s c x
      rw [this]
      simp only [List.mem_cons, not_or]
      tauto

/-- The input-disposal loop: it emits one input event per input, and for
each input that carries a connection it unregisters that connection and
emits its event; nothing else changes. -/
theorem inputsFold_spec (b : Nat) : ∀ (l : List (Nat × Bool)) (s : WS),
    (l.foldl (disposeInputStep b) s).live = s.live ∧
    (l.foldl (disposeInputStep b) s).parent = s.parent ∧
    (l.foldl (disposeInputStep b) s).edges = s.edges ∧
    (l.foldl (disposeInputStep b) s).trace
      = s.trace ++ (l.map (fun ic =>
          Ev.inputDisposeEv b ic.1 ::
            (if ic.2 then [Ev.connDisposeEv ⟨b, .inp ic.1⟩] else []))).flatten ∧
    (∀ x, x ∈ (l.foldl (disposeInputStep b) s).registered ↔
      x ∈ s.registered ∧
        ¬ ∃ ic, ic ∈ l ∧ ic.2 = true ∧ x = CRef.mk b (.inp ic.1)) := by
  intro l
  induction l with
  | nil =>
    intro s
    refine ⟨rfl, rfl, rfl, by simp, fun x => by simp⟩
  | cons ic l ih =>
    intro s
    rw [List.foldl_cons]
    have hfields : (disposeInputStep b s ic).live = s.live ∧
        (disposeInputStep b s ic).parent = s.parent ∧
        (disposeInputStep b s ic).edges = s.edges ∧
        (disposeInputStep b s ic).trace = s.trace ++
          (Ev.inputDisposeEv b ic.1 ::
            (if ic.2 then [Ev.connDisposeEv ⟨b, .inp ic.1⟩] else [])) ∧
        (∀ x, x ∈ (disposeInputStep b s ic).registered ↔
          x ∈ s.registered ∧
            ¬ (ic.2 = true ∧ x = CRef.mk b (.inp ic.1))) := by
      unfold disposeInputStep
      cases hic : ic.2 with
      | false =>
        rw [if_neg (by simp [hic])]
        refine ⟨rfl, rfl, rfl, by simp [pushEv, hic], fun x => by
          simp [pushEv, hic]⟩
      | true =>
        rw [if_pos (rfl : (true : Bool) = true)]
        refine ⟨rfl, rfl, rfl, ?_, fun x => ?_⟩
        · rw [disposeConn_trace]
          simp [pushEv, hic]
        · rw [disposeConn_registered_mem]
          simp [pushEv, hic]
    rcases ih (disposeInputStep b s ic) with ⟨h1, h2, h3, h4, h5⟩
    refine ⟨by rw [h1, hfields.1], by rw [h2, hfields.2.1],
      by rw [h3, hfields.2.2.1], ?_, ?_⟩
    · rw [h4, hfields.2.2.2.1]
      simp [List.append_assoc]
    · intro x
      rw [h5 x, hfields.2.2.2.2 x]
      constructor
      · rintro ⟨⟨hx, hnic⟩, hnl⟩
        refine ⟨hx, ?_⟩
        rintro ⟨ic', hic', h2', h3'⟩
        rcases List.mem_cons.mp hic' with rfl | hic'
        · exact hnic ⟨h2', h3'⟩
        · exact hnl ⟨ic', hic', h2', h3'⟩
      · rintro ⟨hx, hne⟩
        refine ⟨⟨hx, ?_⟩, ?_⟩
        · rintro ⟨h2', h3'⟩
          exact hne ⟨ic, List.mem_cons_self _ _, h2', h3'⟩
        · rintro ⟨ic', hic', h2', h3'⟩
          exact hne ⟨ic', List.mem_cons_of_mem _ hic', h2', h3'⟩

/-- Two distinct children of the same block head disjoint subtrees. -/
theorem sibling_not_reach {s : WS} {dep : Nat → Nat} {b c c' : Nat}
    (hdep : ∀ e ∈ s.parent, dep e.1 < dep e.2)
    (hcp : parentLk s c = some b) (hc'p : parentLk s c' = some b)
    (hne : ¬ c' = c) : ¬ Reach s c c' := by
  intro hR
  cases hR with
  | refl => exact hne rfl
  | step hx hr =>
    rw [hc'p] at hx
    have hby := Option.some.inj hx
    subst hby
    exact absurd (reach_dep_le hdep hr)
      (not_le.mpr (hdep _ (parentLk_mem hcp)))

/-- A strict descendant is reached through some direct child. -/
theorem reach_decomp {s : WS} {b x : Nat} (h : Reach s b x) :
    x = b ∨ ∃ c, parentLk s c = some b ∧ Reach s c x := by
  induction h with
  | refl => exact Or.inl rfl
  | step hx hr ih =>
    rcases ih with rfl | ⟨c, hc, hrc⟩
    · exact Or.inr ⟨_, hx, Reach.refl⟩
    · exact Or.inr ⟨c, hc, Reach.step hx hrc⟩

theorem blkOf_inputEvs (sh : Shapes) (b : Nat) :
    ∀ e ∈ inputEvs sh b, Ev.blkOf e = b := by
  intro e he
  unfold inputEvs at he
  rcases List.mem_flatten.mp he with ⟨l, hl, hel⟩
  rcases List.mem_map.mp hl with ⟨ic, hic, rfl⟩
  rcases List.mem_cons.mp hel with rfl | h2
  · rfl
  · split at h2
    · have := List.mem_singleton.mp h2
      subst this
      rfl
    · cases h2

theorem ownConns_blk (sh : Shapes) (b : Nat) :
    ∀ c ∈ ownConns sh b, c.blk = b := by
  intro c hc
  unfold ownConns at hc
  rcases List.mem_append.mp hc with hc | hc
  · rcases List.mem_append.mp hc with hc | hc
    · split at hc
      · have := List.mem_singleton.mp hc
        subst this
        rfl
      · cases hc
    · split at hc
      · have := List.mem_singleton.mp hc
        subst this
        rfl
      · cases hc
  · split at hc
    · have := List.mem_singleton.mp hc
      subst this
      rfl
    · cases hc

theorem blkOf_connEvs (sh : Shapes) (b : Nat) :
    ∀ e ∈ connEvs sh b, Ev.blkOf e = b := by
  intro e he
  rcases List.mem_map.mp he with ⟨c, hc, rfl⟩
  exact ownConns_blk sh b c hc

theorem blkOf_valueEvs (sh : Shapes) (b : Nat) :
    ∀ e ∈ valueEvs sh b, Ev.blkOf e = b := by
  intro e he
  rcases List.mem_map.mp he with ⟨v, hv, rfl⟩
  rfl

theorem mem_enum_of_getD {l : List Bool} {i : Nat}
    (h : l.getD i false = true) : (i, true) ∈ l.enum := by
  have h2 : l[i]? = some true := by
    cases hq : l[i]? with
    | none =>
      rw [List.getD_eq_getElem?_getD, hq] at h
      simp at h
    | some x =>
      rw [List.getD_eq_getElem?_getD, hq] at h
      simp only [Option.getD_some] at h
      rw [h]
  have hlen : i < l.length := by
    by_contra hlen
    rw [List.getElem?_eq_none (le_of_not_lt hlen)] at h2
    cases h2
  have hget : l[i] = true := by
    rw [List.getElem?_eq_getElem hlen] at h2
    exact Option.some.inj h2
  have hlen2 : i < l.enum.length := by
    rw [List.enum_length]
    exact hlen
  have hq : l.enum.get ⟨i, hlen2⟩ = (i, true) := by
    rw [List.get_eq_getElem, List.getElem_enum, hget]
  rw [← hq]
  exact List.get_mem _ _ _

/-- The child-disposal loop of `dispose`: folding a one-child disposal
that satisfies the disposal contract over a list of distinct children of
the zombie block disposes exactly the children's subtrees. -/
theorem disposeKids_fold (sh : Shapes) (dep : Nat → Nat) (n : Nat)
    (hIH : ∀ (Z' : List Nat) (c : Nat) (σ : WS),
      InvZ sh dep Z' σ → c ∈ σ.live → dep c < n →
      (∀ z ∈ Z', dep c < dep z) →
      InvZ sh dep Z' (dispose sh n c false σ) ∧
      (∀ x, x ∈ (dispose sh n c false σ).live ↔
        (x ∈ σ.live ∧ ¬ Reach σ c x)) ∧
      (∀ y, ¬ Reach σ c y →
        parentLk (dispose sh n c false σ) y = parentLk σ y) ∧
      (∀ y p, parentLk (dispose sh n c false σ) y = some p →
        parentLk σ y = some p) ∧
      (∃ t, (dispose sh n c false σ).trace = σ.trace ++ t ∧
        ∀ e ∈ t, Reach σ c (Ev.blkOf e)))
    (b : Nat) (Z : List Nat) (hdepZ : ∀ z ∈ Z, dep b < dep z) :
    ∀ (L : List Nat) (σ : WS),
      InvZ sh dep (b :: Z) σ → L.Nodup →
      (∀ c ∈ L, c ∈ σ.live ∧ parentLk σ c = some b ∧ dep c < n) →
      InvZ sh dep (b :: Z)
        (L.foldl (fun st c => dispose sh n c false st) σ) ∧
      (∀ x, x ∈ (L.foldl (fun st c => dispose sh n c false st) σ).live ↔
        (x ∈ σ.live ∧ ∀ c ∈ L, ¬ Reach σ c x)) ∧
      (∀ y, (∀ c ∈ L, ¬ Reach σ c y) →
        parentLk (L.foldl (fun st c => dispose sh n c false st) σ) y
          = parentLk σ y) ∧
      (∀ y p,
        parentLk (L.foldl (fun st c => dispose sh n c false st) σ) y
          = some p → parentLk σ y = some p) ∧
      (∃ t, (L.foldl (fun st c => dispose sh n c false st) σ).trace
          = σ.trace ++ t ∧
        ∀ e ∈ t, ∃ c ∈ L, Reach σ c (Ev.blkOf e)) := by
  intro L
  induction L with
  | nil =>
    intro σ hσ _ _
    refine ⟨hσ, ?_, ?_, ?_, ⟨[], by simp, by simp⟩⟩
    · intro x; simp
    · intro y _; rfl
    · intro y p hp; exact hp
  | cons c L' ih =>
    intro σ hσ hnd hL
    rcases hL c (List.mem_cons_self c L') with ⟨hcl, hcp, hcn⟩
    have hdepcb : dep c < dep b := hσ.parentDep _ (parentLk_mem hcp)
    have hdepZ' : ∀ z ∈ b :: Z, dep c < dep z := by
      intro z hz
      rcases List.mem_cons.mp hz with rfl | hz
      · exact hdepcb
      · exact lt_trans hdepcb (hdepZ z hz)
    rcases hIH (b :: Z) c σ hσ hcl hcn hdepZ' with
      ⟨hInv1, hlive1, hframe1, hmono1, t1, htr1, ht1R⟩
    set σ1 := dispose sh n c false σ with hσ1def
    have hsib : ∀ c' ∈ L', ¬ Reach σ c c' := by
      intro c' hc'
      rcases hL c' (List.mem_cons_of_mem _ hc') with ⟨-, hc'p, -⟩
      exact sibling_not_reach hσ.parentDep hcp hc'p
        (fun hq => (List.nodup_cons.mp hnd).1 (hq ▸ hc'))
    have hsib' : ∀ c' ∈ L', ¬ Reach σ c' c := by
      intro c' hc'
      rcases hL c' (List.mem_cons_of_mem _ hc') with ⟨-, hc'p, -⟩
      refine sibling_not_reach hσ.parentDep hc'p hcp ?_
      intro hq
      exact (List.nodup_cons.mp hnd).1 (hq ▸ hc')
    have hT : ∀ c' ∈ L', ∀ x, Reach σ c' x ↔ Reach σ1 c' x := by
      intro c' hc' x
      constructor
      · intro hR
        refine reach_transfer ?_ hR
        intro y hy
        refine hframe1 y ?_
        intro hcy
        rcases reach_linear hcy hy with h | h
        · exact hsib c' hc' h
        · exact hsib' c' hc' h
      · exact reach_mono hmono1
    have hL' : ∀ c' ∈ L', c' ∈ σ1.live ∧ parentLk σ1 c' = some b ∧
        dep c' < n := by
      intro c' hc'
      rcases hL c' (List.mem_cons_of_mem _ hc') with ⟨h1, h2, h3⟩
      refine ⟨(hlive1 c').mpr ⟨h1, hsib c' hc'⟩, ?_, h3⟩
      rw [hframe1 c' (hsib c' hc')]
      exact h2
    rcases ih σ1 hInv1 (List.nodup_cons.mp hnd).2 hL' with
      ⟨hInv2, hlive2, hframe2, hmono2, t2, htr2, ht2R⟩
    rw [List.foldl_cons]
    refine ⟨hInv2, ?_, ?_, ?_, ⟨t1 ++ t2, ?_, ?_⟩⟩
    · intro x
      rw [hlive2 x]
      constructor
      · rintro ⟨hx1, hx2⟩
        rcases (hlive1 x).mp hx1 with ⟨hx0, hxc⟩
        refine ⟨hx0, ?_⟩
        intro c'' hc''
        rcases List.mem_cons.mp hc'' with rfl | hc''
        · exact hxc
        · intro hR
          exact hx2 c'' hc'' ((hT c'' hc'' x).mp hR)
      · rintro ⟨hx0, hall⟩
        refine ⟨(hlive1 x).mpr ⟨hx0, hall c (List.mem_cons_self _ _)⟩, ?_⟩
        intro c'' hc'' hR
        exact hall c'' (List.mem_cons_of_mem _ hc'') ((hT c'' hc'' x).mpr hR)
    · intro y hy
      have h2 : ∀ c'' ∈ L', ¬ Reach σ1 c'' y := by
        intro c'' hc'' hR
        exact hy c'' (List.mem_cons_of_mem _ hc'') ((hT c'' hc'' y).mpr hR)
      rw [hframe2 y h2]
      exact hframe1 y (hy c (List.mem_cons_self _ _))
    · intro y p hp
      exact hmono1 y p (hmono2 y p hp)
    · rw [htr2, htr1, List.append_assoc]
    · intro e he
      rcases List.mem_append.mp he with he | he
      · exact ⟨c, List.mem_cons_self _ _, ht1R e he⟩
      · rcases ht2R e he with ⟨c', hc', hR⟩
        exact ⟨c', List.mem_cons_of_mem _ hc', (hT c' hc' _).mpr hR⟩

theorem mem_childrenOf {s : WS} {b c : Nat} :
    c ∈ childrenOf s b ↔ c ∈ s.live ∧ parentLk s c = some b := by
  unfold childrenOf
  rw [List.mem_filter]
  simp

/-- The disposal contract of `dispose(healStack := false)` on a live
block in a well-formed workspace: the invariant is preserved, exactly
the subtree of the block leaves the live set, parent pointers outside
the subtree are untouched (and none is created), and the trace records
the unplug, the removal, the children's teardown events (all of them
concerning strict descendants), then the inputs, the own connections and
the owned values of the block, in the source's order. -/
theorem dispose_false_spec (sh : Shapes) (dep : Nat → Nat) (hsh : ShOk sh) :
    ∀ (fuel : Nat) (Z : List Nat) (b : Nat) (s : WS),
      InvZ sh dep Z s → b ∈ s.live → dep b < fuel →
      (∀ z ∈ Z, dep b < dep z) →
      InvZ sh dep Z (dispose sh fuel b false s) ∧
      (∀ x, x ∈ (dispose sh fuel b false s).live ↔
        (x ∈ s.live ∧ ¬ Reach s b x)) ∧
      (∀ y, ¬ Reach s b y →
        parentLk (dispose sh fuel b false s) y = parentLk s y) ∧
      (∀ y p, parentLk (dispose sh fuel b false s) y = some p →
        parentLk s y = some p) ∧
      (∃ tk, (dispose sh fuel b false s).trace
          = s.trace ++ [Ev.unplugEv b, Ev.removeEv b] ++ tk
            ++ inputEvs sh b ++ connEvs sh b ++ valueEvs sh b ∧
        ∀ e ∈ tk, (¬ Ev.blkOf e = b) ∧ Reach s b (Ev.blkOf e)) := by
  intro fuel
  induction fuel with
  | zero =>
    intro Z b s _ _ hd _
    exact absurd hd (Nat.not_lt_zero _)
  | succ n ihn =>
    intro Z b s hInv hb hdn hdepZ
    have hIH : ∀ (Z' : List Nat) (c : Nat) (σ : WS),
        InvZ sh dep Z' σ → c ∈ σ.live → dep c < n →
        (∀ z ∈ Z', dep c < dep z) →
        InvZ sh dep Z' (dispose sh n c false σ) ∧
        (∀ x, x ∈ (dispose sh n c false σ).live ↔
          (x ∈ σ.live ∧ ¬ Reach σ c x)) ∧
        (∀ y, ¬ Reach σ c y →
          parentLk (dispose sh n c false σ) y = parentLk σ y) ∧
        (∀ y p, parentLk (dispose sh n c false σ) y = some p →
          parentLk σ y = some p) ∧
        (∃ t, (dispose sh n c false σ).trace = σ.trace ++ t ∧
          ∀ e ∈ t, Reach σ c (Ev.blkOf e)) := by
      intro Z' c σ h1 h2 h3 h4
      rcases ihn Z' c σ h1 h2 h3 h4 with ⟨g1, g2, g3, g4, tc, g5, g6⟩
      refine ⟨g1, g2, g3, g4,
        ⟨[Ev.unplugEv c, Ev.removeEv c] ++ tc ++ inputEvs sh c
          ++ connEvs sh c ++ valueEvs sh c, ?_, ?_⟩⟩
      · rw [g5]
        simp [List.append_assoc]
      · intro e he
        rcases List.mem_append.mp he with he | he
        · rcases List.mem_append.mp he with he | he
          · rcases List.mem_append.mp he with he | he
            · rcases List.mem_append.mp he with he | he
              · rcases List.mem_cons.mp he with rfl | he
                · exact Reach.refl
                · rcases List.mem_cons.mp he with rfl | he
                  · exact Reach.refl
                  · cases he
              · exact (g6 e he).2
            · rw [blkOf_inputEvs sh c e he]
              exact Reach.refl
          · rw [blkOf_connEvs sh c e he]
            exact Reach.refl
        · rw [blkOf_valueEvs sh c e he]
          exact Reach.refl
    -- step 1: unplug, and the unplug event
    obtain ⟨hUInv, hUb, hUframe, hUmono, hUtrace⟩ := unplug_false_spec hsh hInv b
    set s1 := pushEv (unplug sh s b false) (Ev.unplugEv b) with hs1
    have h1Inv : InvZ sh dep Z s1 := InvZ_pushEv hUInv _
    have h1b : parentLk s1 b = none := hUb
    have h1frame : ∀ y, ¬ y = b → parentLk s1 y = parentLk s y := hUframe
    have h1mono : ∀ y p, parentLk s1 y = some p → parentLk s y = some p :=
      hUmono
    have h1live : s1.live = s.live := by
      rw [hs1, pushEv_live]
      exact unplug_live sh s b false
    have h1trace : s1.trace = s.trace ++ [Ev.unplugEv b] := by
      rw [hs1]
      show (unplug sh s b false).trace ++ [Ev.unplugEv b] = _
      rw [hUtrace]
    -- step 2: leave the top set and the block database
    have h2Inv0 := InvZ_remove h1Inv h1b
    set s2 := pushEv { removeTop s1 b with
        live := (removeTop s1 b).live.filter (fun x => ¬ x = b) }
      (Ev.removeEv b) with hs2
    have h2Inv : InvZ sh dep (b :: Z) s2 := h2Inv0
    have h2plkb : parentLk s2 b = none := h1b
    have h2plk' : ∀ y, ¬ y = b → parentLk s2 y = parentLk s y := h1frame
    have h2live : s2.live = s.live.filter (fun x => ¬ x = b) := by
      show s1.live.filter (fun x => ¬ x = b) = _
      rw [h1live]
    have h2trace : s2.trace = s.trace ++ [Ev.unplugEv b, Ev.removeEv b] := by
      show s1.trace ++ [Ev.removeEv b] = _
      rw [h1trace]
      simp
    have hplk2 : ∀ y, parentLk s2 y = if y = b then none else parentLk s y := by
      intro y
      by_cases hy : y = b
      · rw [if_pos hy, hy]
        exact h2plkb
      · rw [if_neg hy]
        exact h2plk' y hy
    have hmono2s : ∀ y p, parentLk s2 y = some p → parentLk s y = some p := by
      intro y p h
      rw [hplk2 y] at h
      by_cases hy : y = b
      · rw [if_pos hy] at h; cases h
      · rw [if_neg hy] at h; exact h
    -- the children
    have hKmem : ∀ c ∈ childrenOf s2 b, c ∈ s2.live ∧
        parentLk s2 c = some b := fun c hc => mem_childrenOf.mp hc
    have hKnd : (childrenOf s2 b).Nodup := h2Inv.liveNodup.filter _
    have hKdep : ∀ c ∈ childrenOf s2 b, dep c < dep b := fun c hc =>
      h2Inv.parentDep _ (parentLk_mem (hKmem c hc).2)
    have hKparent : ∀ c ∈ childrenOf s2 b,
        parentLk s c = some b ∧ ¬ c = b := by
      intro c hc
      have h2 := (hKmem c hc).2
      have hcb : ¬ c = b := by
        intro hq
        rw [hq, h2plkb] at h2
        cases h2
      refine ⟨?_, hcb⟩
      rw [← h2plk' c hcb]
      exact h2
    have hKcond : ∀ c ∈ (childrenOf s2 b).reverse, c ∈ s2.live ∧
        parentLk s2 c = some b ∧ dep c < n := by
      intro c hc
      rw [List.mem_reverse] at hc
      exact ⟨(hKmem c hc).1, (hKmem c hc).2,
        lt_of_lt_of_le (hKdep c hc) (Nat.lt_succ_iff.mp hdn)⟩
    obtain ⟨h3Inv, h3live, h3frame, h3mono, t3, h3trace, h3R⟩ :=
      disposeKids_fold sh dep n hIH b Z hdepZ (childrenOf s2 b).reverse s2
        h2Inv (List.nodup_reverse.mpr hKnd) hKcond
    set s3 := (childrenOf s2 b).reverse.foldl
      (fun st c => dispose sh n c false st) s2 with hs3
    -- reach transfer between s and s2
    have hfwd : ∀ c, dep c < dep b → ∀ x, Reach s c x → Reach s2 c x := by
      intro c hc x hR
      refine reach_transfer ?_ hR
      intro y hy
      have hle : dep y ≤ dep c := reach_dep_le hInv.parentDep hy
      have hyb : ¬ y = b := by
        intro hq
        rw [hq] at hle
        exact absurd (lt_of_le_of_lt hle hc) (lt_irrefl _)
      rw [hplk2 y, if_neg hyb]
    have hbwd : ∀ c x, Reach s2 c x → Reach s c x := fun c x =>
      reach_mono hmono2s
    have hdecomp : ∀ x, Reach s b x ↔
        (x = b ∨ ∃ c ∈ childrenOf s2 b, Reach s2 c x) := by
      intro x
      constructor
      · intro hR
        rcases reach_decomp hR with rfl | ⟨c, hc, hRc⟩
        · exact Or.inl rfl
        · have hcl : c ∈ s.live := hInv.parentChildLive _ (parentLk_mem hc)
          have hdepc : dep c < dep b := hInv.parentDep _ (parentLk_mem hc)
          have hcb : ¬ c = b := by
            intro hq
            rw [hq] at hdepc
            exact absurd hdepc (lt_irrefl _)
          have hc2 : c ∈ s2.live := by
            rw [h2live]
            exact List.mem_filter.mpr ⟨hcl, by simpa using hcb⟩
          have hcp2 : parentLk s2 c = some b := by
            rw [hplk2, if_neg hcb]
            exact hc
          exact Or.inr ⟨c, mem_childrenOf.mpr ⟨hc2, hcp2⟩,
            hfwd c hdepc x hRc⟩
      · rintro (rfl | ⟨c, hc, hRc⟩)
        · exact Reach.refl
        · exact reach_through (hbwd c x hRc) (hKparent c hc).1
    have h3live' : ∀ x, x ∈ s3.live ↔ (x ∈ s.live ∧ ¬ Reach s b x) := by
      intro x
      rw [h3live x, h2live]
      constructor
      · rintro ⟨hx1, hx2⟩
        rcases List.mem_filter.mp hx1 with ⟨hx0, hxb⟩
        refine ⟨hx0, ?_⟩
        rw [hdecomp x]
        rintro (rfl | ⟨c, hc, hRc⟩)
        · simp at hxb
        · exact hx2 c (List.mem_reverse.mpr hc) hRc
      · rintro ⟨hx0, hxn⟩
        rw [hdecomp x] at hxn
        push_neg at hxn
        refine ⟨List.mem_filter.mpr ⟨hx0, by simpa using hxn.1⟩, ?_⟩
        intro c hc hRc
        exact hxn.2 c (List.mem_reverse.mp hc) hRc
    have hKnoreach : ∀ c ∈ (childrenOf s2 b).reverse, ¬ Reach s2 c b := by
      intro c hc hR
      have hle : dep b ≤ dep c := reach_dep_le h2Inv.parentDep hR
      have hlt : dep c < dep b := hKdep c (List.mem_reverse.mp hc)
      exact absurd (lt_of_lt_of_le hlt hle) (lt_irrefl _)
    have h3plkb : parentLk s3 b = none := by
      rw [h3frame b hKnoreach]
      exact h2plkb
    have h3edges : ∀ e ∈ s3.edges, ¬ e.1.blk = b ∧ ¬ e.2.blk = b := by
      intro e he
      rcases h3Inv.edgeOrient e he with ⟨-, -, hpe⟩
      constructor
      · intro hq
        rw [hq] at hpe
        have hentry := parentLk_mem hpe
        have hxlive : e.2.blk ∈ s3.live := h3Inv.parentChildLive _ hentry
        have hxp2 : parentLk s2 e.2.blk = some b := h3mono _ _ hpe
        rcases (h3live _).mp hxlive with ⟨hx2live, hxnR⟩
        exact hxnR _ (List.mem_reverse.mpr
          (mem_childrenOf.mpr ⟨hx2live, hxp2⟩)) Reach.refl
      · intro hq
        rw [hq, h3plkb] at hpe
        cases hpe
    -- step 4: inputs
    obtain ⟨h4live, h4parent, h4edges, h4trace, h4reg⟩ :=
      inputsFold_spec b (sh b).inputs.enum s3
    set s4 := (sh b).inputs.enum.foldl (disposeInputStep b) s3 with hs4
    -- step 5: own connections
    have hnoedge : ∀ c ∈ ownConns sh b, ∀ e ∈ s4.edges,
        ¬ (e.1 = c ∨ e.2 = c) := by
      intro c hc e he
      rw [h4edges] at he
      intro hor
      rcases hor with h | h
      · exact (h3edges e he).1 (by rw [h, ownConns_blk sh b c hc])
      · exact (h3edges e he).2 (by rw [h, ownConns_blk sh b c hc])
    obtain ⟨h5live, h5parent, h5edges, h5trace, h5reg⟩ :=
      connsFold_spec (ownConns sh b) s4 hnoedge
    set s5 := (ownConns sh b).foldl disposeConnStep s4 with hs5
    -- step 6: owned values
    have h6 : (List.range (sh b).values).foldl
        (fun st v => pushEv st (Ev.valueDisposeEv b v)) s5
        = { s5 with trace := s5.trace ++ valueEvs sh b } :=
      valuesFold_spec b _ s5
    set s6 := (List.range (sh b).values).foldl
      (fun st v => pushEv st (Ev.valueDisposeEv b v)) s5 with hs6
    have h6live : s6.live = s5.live := by rw [h6]
    have h6parent : s6.parent = s5.parent := by rw [h6]
    have h6edges : s6.edges = s5.edges := by rw [h6]
    have h6reg : s6.registered = s5.registered := by rw [h6]
    have h6trace : s6.trace = s5.trace ++ valueEvs sh b := by rw [h6]
    have hD : dispose sh (n + 1) b false s = s6 := by
      rw [dispose, if_pos hb]
    -- collapsed field equations
    have h63live : s6.live = s3.live := by rw [h6live, h5live, h4live]
    have h63parent : s6.parent = s3.parent := by
      rw [h6parent, h5parent, h4parent]
    have h63edges : s6.edges = s3.edges := by rw [h6edges, h5edges, h4edges]
    have h63plk : ∀ y, parentLk s6 y = parentLk s3 y := by
      intro y
      unfold parentLk
      rw [h63parent]
    -- the invariant at s6, with b still a zombie
    have h6InvBZ : InvZ sh dep (b :: Z) s6 := by
      refine InvZ_of_fields h3Inv h63live h63parent h63edges ?_
      intro x hx
      rw [h6reg] at hx
      exact ((h4reg x).mp ((h5reg x).mp hx).1).1
    -- nothing in s6 references b any more
    have h6regb : ∀ c ∈ s6.registered, ¬ c.blk = b := by
      intro c hc hq
      rw [h6reg] at hc
      rcases (h5reg c).mp hc with ⟨hc4, hnotOwn⟩
      rcases (h4reg c).mp hc4 with ⟨hc3, hnotInp⟩
      have hrole := h3Inv.regShape c hc3
      unfold roleOk at hrole
      have hceta : c = CRef.mk c.blk c.role := rfl
      cases hcr : c.role with
      | out =>
        rw [hcr] at hrole
        apply hnotOwn
        rw [hceta, hq, hcr]
        unfold ownConns
        refine List.mem_append.mpr (Or.inl (List.mem_append.mpr (Or.inl ?_)))
        rw [if_pos (by rw [← hq]; exact hrole)]
        exact List.mem_singleton.mpr rfl
      | prev =>
        rw [hcr] at hrole
        apply hnotOwn
        rw [hceta, hq, hcr]
        unfold ownConns
        refine List.mem_append.mpr (Or.inl (List.mem_append.mpr (Or.inr ?_)))
        rw [if_pos (by rw [← hq]; exact hrole)]
        exact List.mem_singleton.mpr rfl
      | next =>
        rw [hcr] at hrole
        apply hnotOwn
        rw [hceta, hq, hcr]
        unfold ownConns
        refine List.mem_append.mpr (Or.inr ?_)
        rw [if_pos (by rw [← hq]; exact hrole)]
        exact List.mem_singleton.mpr rfl
      | inp i =>
        rw [hcr] at hrole
        apply hnotInp
        refine ⟨(i, true), ?_, rfl, by rw [hceta, hq, hcr]⟩
        rw [hq] at hrole
        exact mem_enum_of_getD hrole
    have h6parb : ∀ en ∈ s6.parent, ¬ en.2 = b := by
      intro en hen hq
      rw [h63parent] at hen
      have hlk : parentLk s3 en.1 = some en.2 :=
        mem_parentLk h3Inv.parentKeys hen
      rw [hq] at hlk
      have hxlive : en.1 ∈ s3.live := h3Inv.parentChildLive _ hen
      have hxp2 : parentLk s2 en.1 = some b := h3mono _ _ hlk
      rcases (h3live _).mp hxlive with ⟨hx2live, hxnR⟩
      exact hxnR _ (List.mem_reverse.mpr
        (mem_childrenOf.mpr ⟨hx2live, hxp2⟩)) Reach.refl
    have h6edgeb : ∀ e ∈ s6.edges, ¬ e.1.blk = b ∧ ¬ e.2.blk = b := by
      intro e he
      rw [h63edges] at he
      exact h3edges e he
    have h6Inv : InvZ sh dep Z s6 := InvZ_unzombie h6InvBZ h6parb h6edgeb h6regb
    -- assemble
    rw [hD]
    refine ⟨h6Inv, ?_, ?_, ?_, ⟨t3, ?_, ?_⟩⟩
    · intro x
      rw [show x ∈ s6.live ↔ x ∈ s3.live by rw [h63live]]
      exact h3live' x
    · intro y hy
      have hyb : ¬ y = b := fun hq => hy (hq ▸ Reach.refl)
      have h2' : ∀ c ∈ (childrenOf s2 b).reverse, ¬ Reach s2 c y := by
        intro c hc hR
        exact hy ((hdecomp y).mpr (Or.inr ⟨c, List.mem_reverse.mp hc, hR⟩))
      rw [h63plk y, h3frame y h2']
      exact h2plk' y hyb
    · intro y p hp
      rw [h63plk y] at hp
      exact hmono2s y p (h3mono y p hp)
    · rw [h6trace, h5trace, h4trace, h3trace, h2trace]
      have hcE : (ownConns sh b).map (fun c => Ev.connDisposeEv c)
          = connEvs sh b := rfl
      have hiE : ((sh b).inputs.enum.map (fun ic =>
          Ev.inputDisposeEv b ic.1 ::
            (if ic.2 then [Ev.connDisposeEv ⟨b, .inp ic.1⟩] else []))).flatten
          = inputEvs sh b := rfl
      rw [hcE, hiE]
    · intro e he
      rcases h3R e he with ⟨c, hc, hR⟩
      have hlt : dep c < dep b := hKdep c (List.mem_reverse.mp hc)
      have hle : dep (Ev.blkOf e) ≤ dep c := reach_dep_le h2Inv.parentDep hR
      constructor
      · intro hq
        rw [hq] at hle
        exact absurd (lt_of_lt_of_le hlt hle) (lt_irrefl _)
      · exact reach_through (hbwd c _ hR)
          (hKparent c (List.mem_reverse.mp hc)).1

/-! ### A stack with an input child: blocks 1-2-3 stacked, block 4
plugged into block 2's first value input, one owned value on block 2. -/

/-- Shapes: blocks 1 and 3 are plain statement blocks, block 2 is a
statement block with two inputs (the first carrying a connection) and
one owned bound-variable value, block 4 is an expression block. -/
def c4Sh : Shapes := fun b =>
  if b = 4 then
    { hasOut := true, hasPrev := false, hasNext := false, inputs := [],
      checks := fun _ => none, values := 0 }
  else if b = 2 then
    { hasOut := false, hasPrev := true, hasNext := true,
      inputs := [true, false], checks := fun _ => none, values := 1 }
  else
    { hasOut := false, hasPrev := true, hasNext := true, inputs := [],
      checks := fun _ => none, values := 0 }

/-- The workspace: 1-2-3 stacked, 4 under 2's first input. -/
def c4WS : WS :=
  { live := [1, 2, 3, 4], tops := [1],
    parent := [(2, 1), (3, 2), (4, 2)],
    edges := [(⟨1, .next⟩, ⟨2, .prev⟩), (⟨2, .next⟩, ⟨3, .prev⟩),
      (⟨2, .inp 0⟩, ⟨4, .out⟩)],
    registered := [⟨1, .prev⟩, ⟨3, .next⟩],
    trace := [] }

/-- A height certificate for `c4WS`. -/
def dep4 : Nat → Nat := fun b => 4 - b

/-- **C4, counterexample.**  Disposing block 2 of the stack with
`healStack = true`: block 3 is a descendant of block 2 at call time, yet
it is alive afterwards (the heal reconnects it to block 1), so "all
descendants are disposed" fails for `dispose(healStack)` in general; and
block 2's input connection is disposed inside the input-disposal loop —
its event precedes the second input's own disposal event — not in the
later own-connections step the claim describes. -/
theorem dispose_order_counterexample :
    parentLk c4WS 3 = some 2 ∧
    3 ∈ (dispose c4Sh 6 2 true c4WS).live ∧
    Ev.connDisposeEv ⟨2, .inp 0⟩ ∈ (dispose c4Sh 6 2 true c4WS).trace ∧
    Ev.inputDisposeEv 2 1 ∈ (dispose c4Sh 6 2 true c4WS).trace ∧
    ((dispose c4Sh 6 2 true c4WS).trace.indexOf
        (Ev.connDisposeEv ⟨2, .inp 0⟩)
      < (dispose c4Sh 6 2 true c4WS).trace.indexOf
        (Ev.inputDisposeEv 2 1)) := by
  decide

/-- **C4, amended.**  `dispose(healStack := false)` on a live block of a
well-formed workspace tears down in this order: unplug itself, emit its
removal, recursively dispose every child subtree (all those events
concern strict descendants), then dispose its own Inputs with their
input connections interleaved (`input.dispose()` disposes each input's
connection with the input, before the remaining inputs), then disconnect
and dispose its own output/previous/next connections, then dispose every
owned bound-variable value.  Afterwards exactly the block's subtree has
left the live set (all descendants are disposed), and no registered
connection and no edge references a disposed block. -/
theorem dispose_teardown_spec (sh : Shapes) (dep : Nat → Nat) (s : WS)
    (b : Nat) (fuel : Nat) (hsh : ShOk sh) (hInv : InvZ sh dep [] s)
    (hb : b ∈ s.live) (hfuel : dep b < fuel) :
    (∃ tk, (dispose sh fuel b false s).trace
        = s.trace ++ [Ev.unplugEv b, Ev.removeEv b] ++ tk
          ++ inputEvs sh b ++ connEvs sh b ++ valueEvs sh b ∧
      ∀ e ∈ tk, (¬ Ev.blkOf e = b) ∧ Reach s b (Ev.blkOf e)) ∧
    (∀ x, Reach s b x → x ∉ (dispose sh fuel b false s).live) ∧
    (∀ x, x ∈ (dispose sh fuel b false s).live ↔
      (x ∈ s.live ∧ ¬ Reach s b x)) ∧
    (∀ c ∈ (dispose sh fuel b false s).registered,
      c.blk ∈ (dispose sh fuel b false s).live) ∧
    (∀ e ∈ (dispose sh fuel b false s).edges,
      e.1.blk ∈ (dispose sh fuel b false s).live ∧
      e.2.blk ∈ (dispose sh fuel b false s).live) := by
  obtain ⟨hInv', hlive, hframe, hmono, htr⟩ :=
    dispose_false_spec sh dep hsh fuel [] b s hInv hb hfuel (by simp)
  refine ⟨htr, ?_, hlive, ?_, ?_⟩
  · intro x hR hx
    exact ((hlive x).mp hx).2 hR
  · intro c hc
    rcases hInv'.regLive c hc with h | h
    · exact h
    · cases h
  · intro e he
    rcases hInv'.edgeEndsOk e he with ⟨h1, h2⟩
    rcases h1 with h1 | h1
    · rcases h2 with h2 | h2
      · exact ⟨h1, h2⟩
      · cases h2
    · cases h1

/-- Witness for `dispose_teardown_spec`: block 2 of the concrete stack,
with the concrete height certificate. -/
theorem dispose_teardown_spec_witness :
    4 ∈ (dispose c4Sh 6 2 false c4WS).live ↔
      (4 ∈ c4WS.live ∧ ¬ Reach c4WS 2 4) :=
  (dispose_teardown_spec c4Sh dep4 c4WS 2 6
    (by
      intro b
      unfold c4Sh
      split_ifs <;> simp)
    (by
      refine ⟨?_, ?_, ?_, ?_, ?_, ?_, ?_, ?_, ?_, ?_, ?_, ?_, ?_⟩ <;> decide)
    (by decide) (by decide)).2.2.1 4

end BlockCore
